import Mathlib

set_option autoImplicit false

/-!
Verification of the recipe-engine module loader (`recipe_engine/loader.py`).

This file gives a shallow embedding of the loader's core data model and
operations.  Machine-level details that the claims do not touch (Python's
`imp`/`sys.modules` machinery, filesystem reads, `sys.path` preservation)
are abstracted: a "raw module" carries exactly the declared contents that
`_patchup_module` scans and the `DEPS` specification that
`deps_from_spec` resolves, and the filesystem is a pair of predicates.
Python dictionaries are modelled as association lists (first binding
wins, insertion shadows), exceptions as `Except`, and the unbounded
recursion of `RecipeUniverse.load` is made total with an explicit fuel
parameter (fuel exhaustion is a distinguished artificial error; every
statement quantifies over or supplies sufficient fuel).
-/

/-- A value found in one of a recipe module's submodule dictionaries
(`submod.config.__dict__`, `submod.api.__dict__`, `submod.test_api.__dict__`).
The loader only discriminates whether a value is a `ConfigContext`
instance, a subclass of `RecipeApiPlain`, a subclass of `RecipeTestApi`,
or anything else; the `id` field lets distinct declarations be told
apart. -/
inductive Item where
  | configContext (id : Nat)
  | apiClass (id : Nat)
  | testApiClass (id : Nat)
  | other (id : Nat)
deriving DecidableEq

/-- `isinstance(v, ConfigContext)` in `_patchup_module`. -/
def isConfigContext : Item → Bool
  | .configContext _ => true
  | _ => false

/-- `inspect.isclass(v) and issubclass(v, RecipeApiPlain)` in `_patchup_module`. -/
def isApiClass : Item → Bool
  | .apiClass _ => true
  | _ => false

/-- `inspect.isclass(v) and issubclass(v, RecipeTestApi)` in `_patchup_module`. -/
def isTestApiClass : Item → Bool
  | .testApiClass _ => true
  | _ => false

/-- The singleton attributes that `_patchup_module` leaves on a module:
`API` (exactly one), `TEST_API` (at most one), `CONFIG_CTX` (at most one). -/
structure PatchedInfo where
  api : Item
  testApi : Option Item
  configCtx : Option Item
deriving DecidableEq

/-- The declared contents of one recipe module directory, as seen by
`_load_recipe_module_module` / `_patchup_module` before patch-up:
the optional pre-existing `CONFIG_CTX` / `API` / `TEST_API` attributes
(the `getattr(submod, ..., None)` reads), the values of the `config`
submodule's dictionary when a config file is present, the values of the
`api` submodule's dictionary (`submod.api` is accessed unconditionally),
the values of the `test_api` submodule's dictionary when present, and
the module's `DEPS` specification resolved to pairs of
(local name, unique identity). -/
structure RawModule where
  configCtxAttr : Option Item
  apiAttr : Option Item
  testApiAttr : Option Item
  config : Option (List Item)
  api : List Item
  test_api : Option (List Item)
  deps : List (String × String)

/-- The load-time errors of the loader, under the specification's
taxonomy.  `cyclicDependency` is the `assert mod is not None` failure in
`RecipeUniverse.load`; `conflictingDefinition` the `more than one ...`
assertion failures in `_patchup_module`; `missingCapabilityClass` the
`Submodule has no api?` failure; `configWithoutContext` the
`Config file, but no config context?` failure; `noSuchModule` the
`NoSuchRecipe` raised by `NamedDependency`; `outOfFuel` is the
embedding's fuel-exhaustion artifact (no source counterpart). -/
inductive LoadErr where
  | cyclicDependency (name : String)
  | conflictingDefinition (kind : String) (name : String)
  | missingCapabilityClass (name : String)
  | configWithoutContext (name : String)
  | noSuchModule (name : String)
  | outOfFuel
deriving DecidableEq

/-- One scanning loop of `_patchup_module`: fold over the submodule's
dictionary values, keeping the unique item satisfying `pred`; starting
from the pre-existing attribute value `acc`, a second match is the
fatal `more than one ...` assertion. -/
def findSingle (pred : Item → Bool) (kind : String) (name : String) :
    Option Item → List Item → Except LoadErr (Option Item)
  | acc, [] => .ok acc
  | acc, v :: items =>
    if pred v then
      match acc with
      | some _ => .error (.conflictingDefinition kind name)
      | none => findSingle pred kind name (some v) items
    else
      findSingle pred kind name acc items

/-- `_patchup_module(name, submod)`: locate the module's configuration
context (`CONFIG_CTX`), capability class (`API`) and test-double class
(`TEST_API`), in that order, failing on multiplicity, on a config file
without a context, and on the absence of a capability class.
(The `PROPERTIES` default and name-tagging performed at the end of the
source function carry no information used by the claims.) -/
def patchup_module (name : String) (m : RawModule) : Except LoadErr PatchedInfo :=
  let ctxRes : Except LoadErr (Option Item) :=
    match m.config with
    | none => .ok m.configCtxAttr
    | some items =>
      match findSingle isConfigContext "config context" name m.configCtxAttr items with
      | .error e => .error e
      | .ok none => .error (.configWithoutContext name)
      | .ok (some c) => .ok (some c)
  match ctxRes with
  | .error e => .error e
  | .ok ctx =>
    match findSingle isApiClass "api" name m.apiAttr m.api with
    | .error e => .error e
    | .ok none => .error (.missingCapabilityClass name)
    | .ok (some api) =>
      match m.test_api with
      | none => .ok ⟨api, m.testApiAttr, ctx⟩
      | some items =>
        match findSingle isTestApiClass "test api" name m.testApiAttr items with
        | .error e => .error e
        | .ok t => .ok ⟨api, t, ctx⟩

/-- A loaded Module Definition: its unique name, its `LOADED_DEPS`
(local dependency name → loaded dependency, in declaration order) and
the singleton attributes produced by patch-up. -/
inductive ModDef where
  | mk (name : String) (deps : List (String × ModDef)) (info : PatchedInfo)

def ModDef.name : ModDef → String
  | .mk n _ _ => n

def ModDef.deps : ModDef → List (String × ModDef)
  | .mk _ d _ => d

def ModDef.info : ModDef → PatchedInfo
  | .mk _ _ i => i

/-- An entry of the Universe's load table `self._loaded`:
`loading` is the `None` written before a module's dependencies are
loaded, `loaded m` the final Module Definition. -/
inductive LoadEntry where
  | loading
  | loaded (m : ModDef)

/-- The load table `self._loaded` of a `RecipeUniverse`, as an
association list: `lookup` finds the most recent binding, and the
dictionary updates of the source are modelled by shadowing insertions
(which never delete a key). -/
abbrev LoadState := List (String × LoadEntry)

/-- The definition graph the Universe loads from: for every unique
identity, the raw declared contents of that module's directory
(identity resolution from bare names is modelled separately, see
`namedDependency`). -/
abbrev Graph := String → RawModule

mutual

/-- `RecipeUniverse.load(dep)` for the dependency with unique identity
`name`: a cache hit on `loading` (`None`) is the cyclic-dependency
assertion; a cache hit on a loaded module returns it; otherwise the
identity is marked `loading`, the module's own `DEPS` are loaded
recursively (`deps_from_spec` inside `_load_recipe_module_module`),
patch-up runs, and the table entry is overwritten with the result.
`fuel` bounds the recursion depth and is an artifact of the embedding;
it decreases at every recursive call so that the function is structural
and computable by the kernel. -/
def load (G : Graph) (fuel : Nat) (name : String) (st : LoadState) :
    LoadState × Except LoadErr ModDef :=
  match st.lookup name with
  | some .loading => (st, .error (.cyclicDependency name))
  | some (.loaded m) => (st, .ok m)
  | none =>
    match fuel with
    | 0 => (st, .error .outOfFuel)
    | f + 1 =>
      let st1 : LoadState := (name, .loading) :: st
      match loadDeps G f (G name).deps st1 with
      | (st2, .error e) => (st2, .error e)
      | (st2, .ok deps) =>
        match patchup_module name (G name) with
        | .error e => (st2, .error e)
        | .ok info =>
          let m := ModDef.mk name deps info
          ((name, .loaded m) :: st2, .ok m)

/-- `deps_from_spec`: load each declared dependency in order, stopping
at the first failure (a raised exception aborts the comprehension and
propagates, leaving the table as is). -/
def loadDeps (G : Graph) (fuel : Nat) (specs : List (String × String)) (st : LoadState) :
    LoadState × Except LoadErr (List (String × ModDef)) :=
  match specs with
  | [] => (st, .ok [])
  | (k, ident) :: rest =>
    match fuel with
    | 0 => (st, .error .outOfFuel)
    | f + 1 =>
      match load G f ident st with
      | (st1, .error e) => (st1, .error e)
      | (st1, .ok m) =>
        match loadDeps G f rest st1 with
        | (st2, .error e) => (st2, .error e)
        | (st2, .ok ms) => (st2, .ok ((k, m) :: ms))

end

/-- A sequence of `load` calls against one Universe, each continuing
with the table left by the previous one whether it succeeded or raised
(the Python table is a plain dict that survives exceptions). -/
def loadSeq (G : Graph) (fuel : Nat) : List String → LoadState → LoadState
  | [], st => st
  | n :: rest, st => loadSeq G fuel rest (load G fuel n st).1

/-- The mutable state of a `DependencyMapper`: `instances` is
`self._instances` (keyed by the module's unique name — the Universe
creates exactly one Module Definition per unique name, so name equality
is object identity for the modules a mapper ever sees), and `trace` is
ghost instrumentation recording, in order, each invocation of the
instantiator callback together with the dependency mapping it was
handed.  The trace does not influence the computation. -/
structure MState (α : Type) where
  instances : List (String × α)
  trace : List (String × List (String × α))

mutual

/-- `DependencyMapper.instantiate(mod)`: return the cached instance if
present, otherwise instantiate every dependency first, invoke the
instantiator on the resulting mapping, cache and return. -/
def instantiate {α : Type} (f : ModDef → List (String × α) → α) (mod : ModDef)
    (st : MState α) : α × MState α :=
  match st.instances.lookup mod.name with
  | some v => (v, st)
  | none =>
    match mod with
    | .mk n deps info =>
      match instantiateList f deps st with
      | (ds, st1) =>
        let v := f (.mk n deps info) ds
        (v, ⟨(n, v) :: st1.instances, st1.trace ++ [(n, ds)]⟩)

/-- The dependency dictionary comprehension
`{ name: self.instantiate(dep) for name, dep in mod.LOADED_DEPS.iteritems() }`,
threading the mapper's cache left to right. -/
def instantiateList {α : Type} (f : ModDef → List (String × α) → α)
    (l : List (String × ModDef)) (st : MState α) : List (String × α) × MState α :=
  match l with
  | [] => ([], st)
  | (k, d) :: rest =>
    match instantiate f d st with
    | (v, st1) =>
      match instantiateList f rest st1 with
      | (vs, st2) => ((k, v) :: vs, st2)

end

mutual

/-- The value `instantiate` computes for a module, described without
the memoization: the instantiator applied to the module and the fully
constructed values of all its dependencies (the `f_D = f(D, {...})`
description in `DependencyMapper`'s docstring). -/
def instValue {α : Type} (f : ModDef → List (String × α) → α) : ModDef → α
  | .mk n deps info => f (.mk n deps info) (instValueList f deps)

def instValueList {α : Type} (f : ModDef → List (String × α) → α) :
    List (String × ModDef) → List (String × α)
  | [] => []
  | (k, d) :: rest => (k, instValue f d) :: instValueList f rest

end

/-- A Module Definition is an unfolding of the definition graph with
dependency specification `D` and patched attributes `I`: its
`LOADED_DEPS` carry exactly the declared local names and identities,
its attributes are the declared ones, and the same holds recursively.
Modules produced by one Universe all unfold the same graph. -/
inductive FollowsGraph (D : String → List (String × String)) (I : String → PatchedInfo) :
    ModDef → Prop where
  | mk (n : String) (deps : List (String × ModDef)) :
      deps.map (fun p => (p.1, p.2.name)) = D n →
      (∀ p ∈ deps, FollowsGraph D I p.2) →
      FollowsGraph D I (.mk n deps (I n))

mutual

/-- Executable check for `FollowsGraph`. -/
def followsGraphB (D : String → List (String × String)) (I : String → PatchedInfo) :
    ModDef → Bool
  | .mk n deps info =>
    decide (deps.map (fun p => (p.1, p.2.name)) = D n) && decide (info = I n) &&
      followsGraphListB D I deps

def followsGraphListB (D : String → List (String × String)) (I : String → PatchedInfo) :
    List (String × ModDef) → Bool
  | [] => true
  | p :: rest => followsGraphB D I p.2 && followsGraphListB D I rest

end

mutual

/-- The length (in modules) of the longest dependency chain under a
Module Definition: the recursion-depth measure of `instantiate`. -/
def ModDef.height : ModDef → Nat
  | .mk _ deps _ => 1 + heightList deps

def heightList : List (String × ModDef) → Nat
  | [] => 0
  | p :: rest => max p.2.height (heightList rest)

end

/-- One pass of the dependency dictionary comprehension with an
arbitrary depth-budgeted instantiation function `g` for the elements:
iterating over siblings consumes no recursion depth. -/
def instantiateListWith {α : Type} (g : ModDef → MState α → Option (α × MState α)) :
    List (String × ModDef) → MState α → Option (List (String × α) × MState α)
  | [], st => some ([], st)
  | (k, dep) :: rest, st =>
    match g dep st with
    | none => none
    | some (v, st1) =>
      match instantiateListWith g rest st1 with
      | none => none
      | some (vs, st2) => some ((k, v) :: vs, st2)

/-- `instantiate` with an explicit bound `d` on the recursion depth:
each nested `instantiate` frame consumes one unit of the budget, and
the module's dependencies are instantiated with the remaining budget.
`none` means the depth bound was exceeded. -/
def instantiateFuel {α : Type} (f : ModDef → List (String × α) → α) :
    Nat → ModDef → MState α → Option (α × MState α)
  | 0, _, _ => none
  | d + 1, mod, st =>
    match st.instances.lookup mod.name with
    | some v => some (v, st)
    | none =>
      match mod with
      | .mk n deps info =>
        match instantiateListWith (instantiateFuel f d) deps st with
        | none => none
        | some (ds, st1) =>
          let v := f (.mk n deps info) ds
          some (v, ⟨(n, v) :: st1.instances, st1.trace ++ [(n, ds)]⟩)

/-- Errors raised while resolving a callable's arguments:
`undefinedProperty` is `UndefinedPropertyException` (raised with the
name of the missing declaration); `propertyError` stands for any error
a property's `interpret` rule raises (e.g. a required property that is
unset). -/
inductive PropError where
  | undefinedProperty (name : String)
  | propertyError (msg : String)
deriving DecidableEq

/-- A property declaration from a module's or recipe's `PROPERTIES`
schema.  Only its coercion/validation entry point matters here:
`interpret` receives the raw supplied value, or `none` for the
distinguished unset sentinel (`Property.sentinel`), and either yields
the resolved value or raises.  Its implementation lives in
`recipe_api.py`, outside the loader. -/
structure PropDef (Val : Type) where
  interpret : Option Val → Except PropError Val

/-- What `invoke_with_properties` observes about its callable through
`inspect.getargspec`: whether it is a class (then the argument list is
that of `__init__` and the leading receiver is dropped), its formal
parameter names in declaration order, the default values declared in
the signature (returned by `getargspec` but never consulted by the
source), and the call itself, which receives the resolved positional
arguments and the remaining keyword arguments. -/
structure PyCallable (Val R : Type) where
  isClass : Bool
  args : List String
  defaults : List (String × Val)
  call : List Val → List (String × Val) → R

/-- The parameter names `invoke_with_properties` resolves:
`getargspec(...).args`, with `args.pop(0)` removing the receiver for a
class. -/
def argNames {Val R : Type} (c : PyCallable Val R) : List String :=
  if c.isClass then c.args.drop 1 else c.args

/-- `additional_args.pop(arg)`: remove the binding of `arg` from a
keyword-argument dictionary. -/
def removeKey {β : Type} : List (String × β) → String → List (String × β)
  | [], _ => []
  | (k, v) :: rest, a => if k = a then rest else (k, v) :: removeKey rest a

/-- The resolution loop of `invoke_with_properties`: for each formal
parameter in order, consume it from `additional_args` if present there,
otherwise require a declaration in `prop_defs` (else
`UndefinedPropertyException` naming the parameter) and interpret the
raw value `all_props.get(arg, Property.sentinel)`.  Returns the
positional argument list and the unconsumed keyword arguments. -/
def resolveProps {Val : Type} (prop_defs : List (String × PropDef Val))
    (all_props : List (String × Val)) :
    List String → List (String × Val) → Except PropError (List Val × List (String × Val))
  | [], extras => .ok ([], extras)
  | arg :: rest, extras =>
    match extras.lookup arg with
    | some v =>
      match resolveProps prop_defs all_props rest (removeKey extras arg) with
      | .error e => .error e
      | .ok (ps, ex) => .ok (v :: ps, ex)
    | none =>
      match prop_defs.lookup arg with
      | none => .error (.undefinedProperty arg)
      | some pd =>
        match pd.interpret (all_props.lookup arg) with
        | .error e => .error e
        | .ok pv =>
          match resolveProps prop_defs all_props rest extras with
          | .error e => .error e
          | .ok (ps, ex) => .ok (pv :: ps, ex)

/-- `invoke_with_properties(callable_obj, all_props, prop_defs,
**additional_args)`: resolve every formal parameter, then invoke the
callable positionally with the resolved arguments in declaration order
plus the remaining keyword arguments. -/
def invoke_with_properties {Val R : Type} (c : PyCallable Val R)
    (all_props : List (String × Val)) (prop_defs : List (String × PropDef Val))
    (additional_args : List (String × Val)) : Except PropError R :=
  match resolveProps prop_defs all_props (argNames c) additional_args with
  | .error e => .error e
  | .ok (ps, ex) => .ok (c.call ps ex)

/-- Specification-side description of resolving one parameter
(priority: extra keyword arguments, then the property schema, then the
interpreted supplied value), used to state the refinement theorem for
`invoke_with_properties`. -/
def resolveOne {Val : Type} (prop_defs : List (String × PropDef Val))
    (all_props : List (String × Val)) (extras : List (String × Val)) (arg : String) :
    Except PropError Val :=
  match extras.lookup arg with
  | some v => .ok v
  | none =>
    match prop_defs.lookup arg with
    | none => .error (.undefinedProperty arg)
    | some pd => pd.interpret (all_props.lookup arg)

/-- Specification-side resolution of a whole parameter list, each
parameter independently against the original extra arguments. -/
def resolveAllSpec {Val : Type} (prop_defs : List (String × PropDef Val))
    (all_props : List (String × Val)) (extras : List (String × Val)) :
    List String → Except PropError (List Val)
  | [] => .ok []
  | arg :: rest =>
    match resolveOne prop_defs all_props extras arg with
    | .error e => .error e
    | .ok v =>
      match resolveAllSpec prop_defs all_props extras rest with
      | .error e => .error e
      | .ok vs => .ok (v :: vs)

/-- Specification-side description of `invoke_with_properties`: resolve
each declared parameter independently, call with the results in
declaration order, and pass through exactly the extra arguments whose
names are not formal parameters. -/
def invokeSpec {Val R : Type} (c : PyCallable Val R) (all_props : List (String × Val))
    (prop_defs : List (String × PropDef Val)) (extras : List (String × Val)) :
    Except PropError R :=
  match resolveAllSpec prop_defs all_props extras (argNames c) with
  | .error e => .error e
  | .ok ps => .ok (c.call ps (extras.filter (fun p => !(argNames c).contains p.1)))

mutual

/-- The capability instance built by `create_recipe_api`'s
instantiator, restricted to the structure the wiring claims are about:
the module it was built from, the dependency namespace `mod_api.m`
(local name → dependency capability instance) and the companion
test-double object `mod_api.test_api`.  Property injection into the
constructor is modelled by `invoke_with_properties` separately; it does
not influence the wiring performed after construction. -/
inductive ApiInstance where
  | mk (modName : String) (m : List (String × ApiInstance)) (test : TestApiInstance)

/-- A test-double instance: built from the module's declared
`TEST_API` class, or from the default `RecipeTestApi` when the module
declares none (`cls = none`), with its own dependency namespace
`test_api.m`. -/
inductive TestApiInstance where
  | mk (modName : String) (cls : Option Item) (m : List (String × TestApiInstance))

end

def ApiInstance.modName : ApiInstance → String
  | .mk n _ _ => n

def ApiInstance.m : ApiInstance → List (String × ApiInstance)
  | .mk _ m _ => m

def ApiInstance.test : ApiInstance → TestApiInstance
  | .mk _ _ t => t

def TestApiInstance.modName : TestApiInstance → String
  | .mk n _ _ => n

def TestApiInstance.cls : TestApiInstance → Option Item
  | .mk _ c _ => c

def TestApiInstance.m : TestApiInstance → List (String × TestApiInstance)
  | .mk _ _ m => m

/-- The instantiator of `create_recipe_api`: construct the capability
instance, give it a test-double companion
(`(getattr(mod, 'TEST_API', None) or RecipeTestApi)(module=mod)`), then
for every dependency local name `k` attach the dependency's capability
instance under `k` on `mod_api.m` and the dependency's test double
under the same `k` on `mod_api.test_api.m`. -/
def recipe_instantiator (mod : ModDef) (deps : List (String × ApiInstance)) : ApiInstance :=
  .mk mod.name deps
    (.mk mod.name mod.info.testApi (deps.map (fun p => (p.1, p.2.test))))

/-- The instantiator of `create_test_api`: construct the test double
and attach every dependency's test double under its local name. -/
def test_instantiator (mod : ModDef) (deps : List (String × TestApiInstance)) :
    TestApiInstance :=
  .mk mod.name mod.info.testApi deps

/-- `create_recipe_api(toplevel_deps, ...)`: one `DependencyMapper`
instantiates every top-level dependency in turn (sharing its cache),
and each result is attached to the root api object under its local
name.  Returns the root's namespace together with the mapper's final
state. -/
def create_recipe_api (toplevel : List (String × ModDef)) :
    List (String × ApiInstance) × MState ApiInstance :=
  toplevel.foldl
    (fun acc p =>
      match instantiate recipe_instantiator p.2 acc.2 with
      | (inst, st') => (acc.1 ++ [(p.1, inst)], st'))
    ([], ⟨[], []⟩)

/-- `create_test_api(toplevel_deps, universe)`: the parallel pass with
its own independent `DependencyMapper`. -/
def create_test_api (toplevel : List (String × ModDef)) :
    List (String × TestApiInstance) × MState TestApiInstance :=
  toplevel.foldl
    (fun acc p =>
      match instantiate test_instantiator p.2 acc.2 with
      | (inst, st') => (acc.1 ++ [(p.1, inst)], st'))
    ([], ⟨[], []⟩)

/-- The local-name topology of an instance graph: the tree of local
names reachable from a node. -/
inductive NameTree where
  | node (children : List (String × NameTree))

mutual

def apiTopology : ApiInstance → NameTree
  | .mk _ m _ => .node (apiTopologyList m)

def apiTopologyList : List (String × ApiInstance) → List (String × NameTree)
  | [] => []
  | (k, i) :: rest => (k, apiTopology i) :: apiTopologyList rest

end

mutual

def testTopology : TestApiInstance → NameTree
  | .mk _ _ m => .node (testTopologyList m)

def testTopologyList : List (String × TestApiInstance) → List (String × NameTree)
  | [] => []
  | (k, i) :: rest => (k, testTopology i) :: testTopologyList rest

end

/-- The filesystem facts module discovery consults. -/
structure FS where
  isDir : String → Bool
  isFile : String → Bool

/-- `os.path.join` for the one shape discovery uses. -/
def joinPath (a b : String) : String := a ++ "/" ++ b

/-- `_is_recipe_module_dir(path)`: a directory containing the defining
file `__init__.py`. -/
def is_recipe_module_dir (fs : FS) (path : String) : Bool :=
  fs.isDir path && fs.isFile (joinPath path "__init__.py")

/-- `NamedDependency.__init__`: scan the Universe's module search roots
in order and take the first candidate directory that is a recipe module
directory; raise `NoSuchRecipe` (the specification's `NoSuchModule`)
naming the module when no root matches. -/
def namedDependency (fs : FS) (module_dirs : List String) (name : String) :
    Except LoadErr String :=
  match module_dirs with
  | [] => .error (.noSuchModule name)
  | p :: rest =>
    let mod_path := joinPath p name
    if is_recipe_module_dir fs mod_path then .ok mod_path
    else namedDependency fs rest name

/-! ### Concrete instances and auxiliary predicates used by the theorems -/

/-- The patched attributes every `rawMod` yields. -/
def infoW : PatchedInfo := ⟨Item.apiClass 0, none, none⟩

/-- A well-formed raw module with one capability class and the given
dependency specification. -/
def rawMod (deps : List (String × String)) : RawModule :=
  ⟨none, none, none, none, [Item.apiClass 0], none, deps⟩

/-- Definitions A→B→A (a transitive cycle). -/
def GcycAB : Graph :=
  fun n => if n = "A" then rawMod [("B", "B")] else if n = "B" then rawMod [("A", "A")]
    else rawMod []

/-- Definitions A→B→C (an acyclic chain). -/
def GchainABC : Graph :=
  fun n => if n = "A" then rawMod [("B", "B")] else if n = "B" then rawMod [("C", "C")]
    else rawMod []

/-- A module depending directly on itself. -/
def GselfA : Graph := fun _ => rawMod [("x", "A")]

/-- A raw module declaring two capability classes (and nothing else),
plus an empty well-formed sibling, for the witness graph. -/
def rawTwoApis : RawModule :=
  ⟨none, none, none, none, [Item.apiClass 0, Item.apiClass 1], none, []⟩

/-- A two-root filesystem in which only the second root holds module
`m`, and a name absent everywhere. -/
def fsW : FS :=
  ⟨fun p => p = "r1" || p = "r2" || p = "r2/m",
   fun p => p = "r2/m/__init__.py"⟩

/-- A concrete callable for the witness: a class (receiver dropped)
with parameters `p` and `q`, returning the positional arguments and the
leftover keyword arguments. -/
def cW : PyCallable Nat (List Nat × List (String × Nat)) :=
  ⟨true, ["self", "p", "q"], [], fun ps ex => (ps, ex)⟩

/-- A property declaration for `q` with default `5`: unset interprets
to the default, a supplied value passes through. -/
def pdW : List (String × PropDef Nat) :=
  [("q", ⟨fun o => match o with | none => .ok 5 | some v => .ok v⟩)]

/-- The serialization instantiator used by the concrete examples: the
module's name with the received dependency instances in brackets. -/
def serI : ModDef → List (String × String) → String :=
  fun mod ds => mod.name ++ "(" ++ String.intercalate "," (ds.map Prod.snd) ++ ")"

/-- The diamond dependency specification d→{b,c}→a. -/
def Dd : String → List (String × String) := fun n =>
  if n = "d" then [("b", "b"), ("c", "c")]
  else if n = "b" then [("a", "a")]
  else if n = "c" then [("a", "a")]
  else []

/-- Patched attributes of the diamond's modules. -/
def Id0 : String → PatchedInfo := fun _ => infoW

def Ma : ModDef := .mk "a" [] infoW

def Mb : ModDef := .mk "b" [("a", Ma)] infoW

def Mc : ModDef := .mk "c" [("a", Ma)] infoW

def Md : ModDef := .mk "d" [("b", Mb), ("c", Mc)] infoW

/-- The per-key preservation relation of the Load Table: a `Loading`
entry stays `Loading` or becomes `Loaded`, a `Loaded` entry is
unchanged, and no key is ever removed (append-only). -/
def TablePreserved (st st' : LoadState) : Prop :=
  ∀ k : String,
    (st.lookup k = some .loading →
      st'.lookup k = some .loading ∨ ∃ m, st'.lookup k = some (.loaded m)) ∧
    (∀ m, st.lookup k = some (.loaded m) → st'.lookup k = some (.loaded m)) ∧
    ((st.lookup k).isSome → (st'.lookup k).isSome)

/-- `s` occurs in the dependency tree under `m` (reflexively). -/
inductive SubMod : ModDef → ModDef → Prop where
  | refl (m : ModDef) : SubMod m m
  | step (s : ModDef) (n : String) (deps : List (String × ModDef)) (info : PatchedInfo)
      (p : String × ModDef) (hp : p ∈ deps) (h : SubMod s p.2) :
      SubMod s (.mk n deps info)

/-- `GReach D root x`: the identity `x` is reachable from `root` along
declared dependency edges of the definition graph `D`. -/
inductive GReach (D : String → List (String × String)) (root : String) : String → Prop where
  | refl : GReach D root root
  | step (b c k : String) (h : GReach D root b) (hm : (k, c) ∈ D b) : GReach D root c

/-- The invariant a mapper state keeps while instantiating unfoldings
of the definition graph `(D, I)` with instantiator `f`:
every cached instance is the fully constructed value of the module it
is keyed by; a name is cached exactly when its instantiator has run;
the instantiator ran at most once per name; every recorded invocation
received the fully constructed dependency mapping of its module; and
every invocation was preceded by the invocations of all its
dependencies. -/
structure MapInv (D : String → List (String × String)) (I : String → PatchedInfo)
    {α : Type} (f : ModDef → List (String × α) → α) (st : MState α) : Prop where
  cache : ∀ n v, st.instances.lookup n = some v →
    ∃ m, FollowsGraph D I m ∧ m.name = n ∧ v = instValue f m
  keys : ∀ n, (st.instances.lookup n).isSome ↔ n ∈ st.trace.map Prod.fst
  nodupTrace : (st.trace.map Prod.fst).Nodup
  traceArgs : ∀ e ∈ st.trace, ∃ m, FollowsGraph D I m ∧ m.name = e.1 ∧
    e.2 = instValueList f m.deps
  traceOrder : ∀ i, ∀ h : i < st.trace.length,
    ∀ q ∈ D ((st.trace.get ⟨i, h⟩).1), q.2 ∈ (st.trace.take i).map Prod.fst

/-! ### Association-list helper lemmas (Python dict lookups) -/

theorem lookup_cons_self {β : Type} (k : String) (v : β) (l : List (String × β)) :
    ((k, v) :: l).lookup k = some v := by
  simp [List.lookup]

theorem lookup_cons_ne {β : Type} (k a : String) (v : β) (l : List (String × β))
    (h : a ≠ k) : ((k, v) :: l).lookup a = l.lookup a := by
  have hb : (a == k) = false := beq_false_of_ne h
  simp [List.lookup, hb]

theorem lookup_none_not_mem {β : Type} (a : String) (l : List (String × β))
    (h : l.lookup a = none) : a ∉ l.map Prod.fst := by
  induction l with
  | nil => simp
  | cons p rest ih =>
    match p with
    | (k, v) =>
      by_cases hak : a = k
      · subst hak
        rw [lookup_cons_self] at h
        exact absurd h (by simp)
      · rw [lookup_cons_ne k a v rest hak] at h
        simp only [List.map_cons, List.mem_cons]
        rintro (h1 | h2)
        · exact hak h1
        · exact ih h h2

theorem lookup_isSome_mem {β : Type} (a : String) (l : List (String × β))
    (h : (l.lookup a).isSome) : a ∈ l.map Prod.fst := by
  induction l with
  | nil => simp [List.lookup] at h
  | cons p rest ih =>
    match p with
    | (k, v) =>
      by_cases hak : a = k
      · simp [hak]
      · rw [lookup_cons_ne k a v rest hak] at h
        simp only [List.map_cons, List.mem_cons]
        exact Or.inr (ih h)

theorem lookup_mem_isSome {β : Type} (a : String) (l : List (String × β))
    (h : a ∈ l.map Prod.fst) : (l.lookup a).isSome := by
  induction l with
  | nil => simp at h
  | cons p rest ih =>
    match p with
    | (k, v) =>
      by_cases hak : a = k
      · subst hak
        rw [lookup_cons_self]
        rfl
      · rw [lookup_cons_ne k a v rest hak]
        simp only [List.map_cons, List.mem_cons] at h
        exact ih (h.resolve_left hak)

/-! ### C7: bare-name discovery -/

/-- C7.  Resolving a bare module name scans the configured module
search roots in their fixed order: the result is a success exactly when
some root's candidate directory satisfies the module-directory
predicate, in which case it is the first such candidate; when no root
matches, the error is `NoSuchModule` naming the module. -/
theorem namedDependency_first_match (fs : FS) (module_dirs : List String) (name : String) :
    (∀ path, namedDependency fs module_dirs name = .ok path ↔
      ∃ i, ∃ hi : i < module_dirs.length,
        path = joinPath (module_dirs.get ⟨i, hi⟩) name ∧
        is_recipe_module_dir fs path = true ∧
        ∀ j, ∀ hj : j < module_dirs.length, j < i →
          is_recipe_module_dir fs (joinPath (module_dirs.get ⟨j, hj⟩) name) = false) ∧
    (namedDependency fs module_dirs name = .error (.noSuchModule name) ↔
      ∀ d ∈ module_dirs, is_recipe_module_dir fs (joinPath d name) = false) := by
  induction module_dirs with
  | nil =>
    constructor
    · intro path
      constructor
      · intro h
        simp [namedDependency] at h
      · rintro ⟨i, hi, _⟩
        exact absurd hi (by simp)
    · simp [namedDependency]
  | cons p rest ih =>
    constructor
    · intro path
      constructor
      · intro h
        rw [namedDependency] at h
        by_cases hp : is_recipe_module_dir fs (joinPath p name) = true
        · simp only [hp, if_true] at h
          cases h
          exact ⟨0, by simp, rfl, hp, fun j hj hj0 => absurd hj0 (by omega)⟩
        · simp only [hp, if_false, Bool.false_eq_true] at h
          obtain ⟨i, hi, hpath, hok, hmin⟩ := (ih.1 path).mp h
          refine ⟨i + 1, by simpa using Nat.succ_lt_succ hi, hpath, hok, ?_⟩
          intro j hj hji
          match j with
          | 0 => simpa using (Bool.eq_false_iff.mpr (fun hc => hp hc))
          | j' + 1 =>
            have hj' : j' < rest.length := by simpa using Nat.lt_of_succ_lt_succ hj
            have := hmin j' hj' (Nat.lt_of_succ_lt_succ hji)
            simpa using this
      · rintro ⟨i, hi, hpath, hok, hmin⟩
        rw [namedDependency]
        match i with
        | 0 =>
          simp only [List.get] at hpath
          rw [hpath] at hok ⊢
          simp [hok]
        | i' + 1 =>
          have h0 : is_recipe_module_dir fs (joinPath p name) = false := by
            simpa using hmin 0 (by simp) (Nat.succ_pos i')
          simp only [h0, if_false, Bool.false_eq_true]
          refine (ih.1 path).mpr ?_
          have hi' : i' < rest.length := by simpa using Nat.lt_of_succ_lt_succ hi
          refine ⟨i', hi', by simpa using hpath, hok, ?_⟩
          intro j hj hji
          have := hmin (j + 1) (by simpa using Nat.succ_lt_succ hj) (Nat.succ_lt_succ hji)
          simpa using this
    · constructor
      · intro h
        rw [namedDependency] at h
        by_cases hp : is_recipe_module_dir fs (joinPath p name) = true
        · simp [hp] at h
        · simp only [hp, if_false, Bool.false_eq_true] at h
          intro d hd
          rcases List.mem_cons.mp hd with h1 | h2
          · subst h1
            exact Bool.eq_false_iff.mpr (fun hc => hp hc)
          · exact (ih.2.mp h) d h2
      · intro h
        rw [namedDependency]
        have h0 : is_recipe_module_dir fs (joinPath p name) = false :=
          h p (List.mem_cons_self p rest)
        simp only [h0, if_false, Bool.false_eq_true]
        exact ih.2.mpr (fun d hd => h d (List.mem_cons_of_mem p hd))

/-- Witness for `namedDependency_first_match`: under `fsW`, the module
`m` resolves to the second root's candidate, and a missing name yields
`NoSuchModule`. -/
theorem namedDependency_first_match_witness :
    (namedDependency fsW ["r1", "r2"] "m" = .ok "r2/m") ∧
    (namedDependency fsW ["r1", "r2"] "zzz" = .error (.noSuchModule "zzz")) := by
  constructor
  · exact ((namedDependency_first_match fsW ["r1", "r2"] "m").1 "r2/m").mpr
      ⟨1, by decide, by decide, by decide, by decide⟩
  · exact (namedDependency_first_match fsW ["r1", "r2"] "zzz").2.mpr (by decide)

/-! ### C10: signature-level defaults are never consulted -/

/-- C10.  `invoke_with_properties` never reads the default values
declared in the callable's own signature: its result is invariant under
changing them, and a parameter that carries a signature-level default
but appears in neither the extra arguments nor the property schema
still raises `UndefinedPropertyException`. -/
theorem invoke_ignores_signature_defaults :
    (∀ (Val R : Type) (isCls : Bool) (args : List String)
       (ds1 ds2 : List (String × Val)) (call : List Val → List (String × Val) → R)
       (all_props : List (String × Val)) (prop_defs : List (String × PropDef Val))
       (extras : List (String × Val)),
       invoke_with_properties ⟨isCls, args, ds1, call⟩ all_props prop_defs extras =
         invoke_with_properties ⟨isCls, args, ds2, call⟩ all_props prop_defs extras) ∧
    (invoke_with_properties
        (⟨false, ["p"], [("p", 37)], fun ps _ => ps.length⟩ : PyCallable Nat Nat)
        [] [] [] = .error (.undefinedProperty "p")) := by
  constructor
  · intro Val R isCls args ds1 ds2 call all_props prop_defs extras
    rfl
  · rfl

/-! ### C4: property injection resolution -/

theorem removeKey_lookup_ne {β : Type} (l : List (String × β)) (a b : String) (h : b ≠ a) :
    (removeKey l a).lookup b = l.lookup b := by
  induction l with
  | nil => rfl
  | cons p rest ih =>
    match p with
    | (k, v) =>
      rw [removeKey]
      by_cases hk : k = a
      · rw [if_pos hk]
        rw [lookup_cons_ne k b v rest (hk ▸ h)]
      · rw [if_neg hk]
        by_cases hb : b = k
        · subst hb
          rw [lookup_cons_self, lookup_cons_self]
        · rw [lookup_cons_ne k b v _ hb, lookup_cons_ne k b v _ hb]
          exact ih

theorem removeKey_keys_sublist {β : Type} (l : List (String × β)) (a : String) :
    List.Sublist ((removeKey l a).map Prod.fst) (l.map Prod.fst) := by
  induction l with
  | nil => simp [removeKey]
  | cons p rest ih =>
    match p with
    | (k, v) =>
      rw [removeKey]
      by_cases hk : k = a
      · rw [if_pos hk]
        exact List.sublist_cons_of_sublist k (List.Sublist.refl _)
      · rw [if_neg hk]
        simpa using List.Sublist.cons₂ k ih

theorem resolveAllSpec_congr {Val : Type} (prop_defs : List (String × PropDef Val))
    (all_props : List (String × Val)) (ex1 ex2 : List (String × Val)) :
    ∀ args : List String, (∀ b ∈ args, ex1.lookup b = ex2.lookup b) →
    resolveAllSpec prop_defs all_props ex1 args = resolveAllSpec prop_defs all_props ex2 args := by
  intro args
  induction args with
  | nil => intro _; rfl
  | cons arg rest ih =>
    intro h
    have harg : ex1.lookup arg = ex2.lookup arg := h arg (List.mem_cons_self arg rest)
    have hone : resolveOne prop_defs all_props ex1 arg = resolveOne prop_defs all_props ex2 arg := by
      rw [resolveOne, resolveOne, harg]
    rw [resolveAllSpec, resolveAllSpec, hone,
      ih (fun b hb => h b (List.mem_cons_of_mem arg hb))]

theorem contains_cons_ne (arg k : String) (ks : List String) (h : k ≠ arg) :
    ((arg :: ks).contains k) = (ks.contains k) := by
  have hk : (k == arg) = false := beq_false_of_ne h
  simp [List.contains, List.elem, hk]

theorem filter_keys_out {Val : Type} (ex : List (String × Val)) (arg : String) (ks : List String)
    (h : arg ∉ ex.map Prod.fst) :
    ex.filter (fun p => !((arg :: ks).contains p.1)) = ex.filter (fun p => !(ks.contains p.1)) := by
  induction ex with
  | nil => rfl
  | cons p rest ih =>
    match p with
    | (k, v) =>
      simp only [List.map_cons, List.mem_cons] at h
      push_neg at h
      have hck : ((arg :: ks).contains k) = (ks.contains k) :=
        contains_cons_ne arg k ks (fun he => h.1 he.symm)
      simp only [List.filter_cons, hck, ih h.2]

theorem removeKey_filter {Val : Type} (ex : List (String × Val)) (arg : String)
    (ks : List String) (hnd : (ex.map Prod.fst).Nodup) :
    (removeKey ex arg).filter (fun p => !(ks.contains p.1)) =
      ex.filter (fun p => !((arg :: ks).contains p.1)) := by
  induction ex with
  | nil => rfl
  | cons p rest ih =>
    match p with
    | (k, v) =>
      simp only [List.map_cons, List.nodup_cons] at hnd
      rw [removeKey]
      by_cases hk : k = arg
      · rw [if_pos hk]
        have hdrop : ((arg :: ks).contains k) = true := by
          simp [List.contains, List.elem, hk]
        rw [List.filter_cons]
        simp only [hdrop, Bool.not_true]
        rw [filter_keys_out rest arg ks (hk ▸ hnd.1)]
        simp
      · rw [if_neg hk]
        have hck : ((arg :: ks).contains k) = (ks.contains k) := contains_cons_ne arg k ks hk
        rw [List.filter_cons, List.filter_cons, hck, ih hnd.2]

theorem resolveProps_spec {Val : Type} (prop_defs : List (String × PropDef Val))
    (all_props : List (String × Val)) :
    ∀ (args : List String) (extras : List (String × Val)), args.Nodup →
    (extras.map Prod.fst).Nodup →
    resolveProps prop_defs all_props args extras =
      (match resolveAllSpec prop_defs all_props extras args with
       | .error e => .error e
       | .ok ps => .ok (ps, extras.filter (fun p => !(args.contains p.1)))) := by
  intro args
  induction args with
  | nil =>
    intro extras _ _
    simp [resolveProps, resolveAllSpec, List.contains, List.elem]
  | cons arg rest ih =>
    intro extras hnd hexnd
    have harg : arg ∉ rest := (List.nodup_cons.mp hnd).1
    have hrest : rest.Nodup := (List.nodup_cons.mp hnd).2
    cases hvl : extras.lookup arg with
    | some v =>
      have hexnd' : ((removeKey extras arg).map Prod.fst).Nodup :=
        (removeKey_keys_sublist extras arg).nodup hexnd
      have hcongr : resolveAllSpec prop_defs all_props (removeKey extras arg) rest =
          resolveAllSpec prop_defs all_props extras rest :=
        resolveAllSpec_congr prop_defs all_props _ _ rest
          (fun b hb => removeKey_lookup_ne extras arg b (fun he => harg (he ▸ hb)))
      simp only [resolveProps, resolveAllSpec, resolveOne, hvl,
        ih (removeKey extras arg) hrest hexnd', hcongr]
      cases resolveAllSpec prop_defs all_props extras rest with
      | error e => rfl
      | ok ps =>
        simp only
        rw [removeKey_filter extras arg rest hexnd]
    | none =>
      cases hpd : prop_defs.lookup arg with
      | none => simp only [resolveProps, resolveAllSpec, resolveOne, hvl, hpd]
      | some pdx =>
        cases hint : pdx.interpret (all_props.lookup arg) with
        | error e =>
          simp only [resolveProps, resolveAllSpec, resolveOne, hvl, hpd, hint]
        | ok pv =>
          simp only [resolveProps, resolveAllSpec, resolveOne, hvl, hpd, hint,
            ih extras hrest hexnd]
          cases resolveAllSpec prop_defs all_props extras rest with
          | error e => rfl
          | ok ps =>
            simp only
            rw [filter_keys_out extras arg rest (lookup_none_not_mem arg extras hvl)]

/-- C4.  `invoke_with_properties` refines the specification's
per-parameter resolution priority: every formal parameter (after
dropping a class's receiver) is bound from the extra keyword arguments
if present there, otherwise must be declared in the property schema
(else `UndefinedPropertyException` naming it), otherwise receives the
interpreted supplied value (unset sentinel when absent); the callable
is invoked positionally with the results in declaration order plus the
unconsumed extra arguments.  Python formal-parameter lists and keyword
dictionaries have unique names, whence the two `Nodup` hypotheses. -/
theorem invoke_with_properties_refines {Val R : Type} (c : PyCallable Val R)
    (all_props : List (String × Val)) (prop_defs : List (String × PropDef Val))
    (extras : List (String × Val)) (hargs : (argNames c).Nodup)
    (hex : (extras.map Prod.fst).Nodup) :
    invoke_with_properties c all_props prop_defs extras =
      invokeSpec c all_props prop_defs extras := by
  rw [invoke_with_properties, invokeSpec,
    resolveProps_spec prop_defs all_props (argNames c) extras hargs hex]
  cases resolveAllSpec prop_defs all_props extras (argNames c) with
  | error e => rfl
  | ok ps => rfl

/-- Witness for `invoke_with_properties_refines` at a concrete input:
`p` is consumed from the extra arguments, `q` falls back to its
declared default, and the unconsumed extra argument `x` is passed
through. -/
theorem invoke_with_properties_refines_witness :
    invoke_with_properties cW [] pdW [("p", 7), ("x", 9)] =
      invokeSpec cW [] pdW [("p", 7), ("x", 9)] ∧
    invoke_with_properties cW [] pdW [("p", 7), ("x", 9)] =
      .ok ([7, 5], [("x", 9)]) := by
  constructor
  · exact invoke_with_properties_refines cW [] pdW [("p", 7), ("x", 9)]
      (by decide) (by decide)
  · rfl

/-! ### C5: structural load errors -/

theorem findSingle_countP_zero (pred : Item → Bool) (kind name : String) :
    ∀ (items : List Item) (acc : Option Item), items.countP pred = 0 →
    findSingle pred kind name acc items = .ok acc := by
  intro items
  induction items with
  | nil => intro acc _; rfl
  | cons v rest ih =>
    intro acc h
    rw [List.countP_cons] at h
    cases hv : pred v with
    | true => simp [hv] at h
    | false =>
      rw [findSingle.eq_def]
      simp only [hv, Bool.false_eq_true, if_false]
      rw [hv] at h
      simp only [Bool.false_eq_true, if_false, Nat.add_zero] at h
      exact ih acc h

theorem findSingle_conflict_some (pred : Item → Bool) (kind name : String) :
    ∀ (items : List Item) (x : Item), 1 ≤ items.countP pred →
    findSingle pred kind name (some x) items = .error (.conflictingDefinition kind name) := by
  intro items
  induction items with
  | nil => intro x h; simp [List.countP_nil] at h
  | cons v rest ih =>
    intro x h
    rw [findSingle.eq_def]
    cases hv : pred v with
    | true => simp [hv]
    | false =>
      simp only [hv, Bool.false_eq_true, if_false]
      rw [List.countP_cons, hv] at h
      simp only [Bool.false_eq_true, if_false, Nat.add_zero] at h
      exact ih x h

theorem findSingle_conflict_two (pred : Item → Bool) (kind name : String) :
    ∀ items : List Item, 2 ≤ items.countP pred →
    findSingle pred kind name none items = .error (.conflictingDefinition kind name) := by
  intro items
  induction items with
  | nil => intro h; simp [List.countP_nil] at h
  | cons v rest ih =>
    intro h
    rw [findSingle.eq_def]
    rw [List.countP_cons] at h
    cases hv : pred v with
    | true =>
      simp only [hv, if_true]
      rw [hv] at h
      simp only [if_true] at h
      exact findSingle_conflict_some pred kind name rest v (by omega)
    | false =>
      simp only [hv, Bool.false_eq_true, if_false]
      rw [hv] at h
      simp only [Bool.false_eq_true, if_false, Nat.add_zero] at h
      exact ih h

theorem findSingle_countP_one (pred : Item → Bool) (kind name : String) :
    ∀ items : List Item, items.countP pred = 1 →
    ∃ x, findSingle pred kind name none items = .ok (some x) ∧ pred x = true := by
  intro items
  induction items with
  | nil => intro h; simp [List.countP_nil] at h
  | cons v rest ih =>
    intro h
    rw [findSingle.eq_def]
    rw [List.countP_cons] at h
    cases hv : pred v with
    | true =>
      simp only [hv, if_true]
      refine ⟨v, ?_, hv⟩
      rw [hv] at h
      simp only [if_true] at h
      exact findSingle_countP_zero pred kind name rest (some v) (by omega)
    | false =>
      simp only [hv, Bool.false_eq_true, if_false]
      rw [hv] at h
      simp only [Bool.false_eq_true, if_false, Nat.add_zero] at h
      exact ih h

/-- C5.  Structural definition errors: more than one configuration
context, more than one capability class, or more than one test-double
class in a module's declared contents is a `ConflictingDefinitionError`;
no capability class at all is a `MissingCapabilityClassError`; these
are raised by patch-up, which runs inside `load`; and `instantiate` is
total — it has no failure outcome, so no structural error can ever be
raised at instantiation time. -/
theorem patchup_structural_errors :
    (∀ (name : String) (m : RawModule) (items : List Item), m.configCtxAttr = none →
      m.config = some items → 2 ≤ items.countP isConfigContext →
      patchup_module name m = .error (.conflictingDefinition "config context" name)) ∧
    (∀ (name : String) (m : RawModule), m.config = none → m.apiAttr = none →
      m.api.countP isApiClass = 0 →
      patchup_module name m = .error (.missingCapabilityClass name)) ∧
    (∀ (name : String) (m : RawModule), m.config = none → m.apiAttr = none →
      2 ≤ m.api.countP isApiClass →
      patchup_module name m = .error (.conflictingDefinition "api" name)) ∧
    (∀ (name : String) (m : RawModule) (items : List Item), m.config = none →
      m.apiAttr = none → m.api.countP isApiClass = 1 → m.testApiAttr = none →
      m.test_api = some items → 2 ≤ items.countP isTestApiClass →
      patchup_module name m = .error (.conflictingDefinition "test api" name)) ∧
    (∀ (G : Graph) (fuel : Nat) (name : String) (st : LoadState),
      st.lookup name = none → (G name).deps = [] → (G name).config = none →
      (G name).apiAttr = none → 2 ≤ (G name).api.countP isApiClass →
      (load G (fuel + 1) name st).2 = .error (.conflictingDefinition "api" name)) ∧
    (∀ (α : Type) (f : ModDef → List (String × α) → α) (mod : ModDef) (st : MState α),
      ∃ v st', instantiate f mod st = (v, st')) := by
  have hapi2 : ∀ (name : String) (m : RawModule), m.config = none → m.apiAttr = none →
      2 ≤ m.api.countP isApiClass →
      patchup_module name m = .error (.conflictingDefinition "api" name) := by
    intro name m hc ha h2
    rw [patchup_module]
    simp only [hc, ha]
    rw [findSingle_conflict_two isApiClass "api" name m.api h2]
  refine ⟨?_, ?_, hapi2, ?_, ?_, ?_⟩
  · intro name m items hattr hconf h2
    rw [patchup_module]
    simp only [hconf, hattr]
    rw [findSingle_conflict_two isConfigContext "config context" name items h2]
  · intro name m hc ha h0
    rw [patchup_module]
    simp only [hc, ha]
    rw [findSingle_countP_zero isApiClass "api" name m.api none h0]
  · intro name m items hc ha h1 ht hta h2
    rw [patchup_module]
    simp only [hc, ha, hta]
    obtain ⟨x, hx, hpx⟩ := findSingle_countP_one isApiClass "api" name m.api h1
    rw [hx]
    simp only [ht]
    rw [findSingle_conflict_two isTestApiClass "test api" name items h2]
  · intro G fuel name st hst hdeps hconf happ h2
    rw [load]
    simp only [hst, hdeps, loadDeps]
    rw [hapi2 name (G name) hconf happ h2]
  · intro α f mod st
    exact ⟨(instantiate f mod st).1, (instantiate f mod st).2, rfl⟩

/-- Witness for `patchup_structural_errors`: a module with two
capability classes fails at load time with a conflicting-definition
error. -/
theorem patchup_structural_errors_witness :
    (load (fun _ => rawTwoApis) 5 "x" []).2 =
      .error (.conflictingDefinition "api" "x") :=
  patchup_structural_errors.2.2.2.2.1 (fun _ => rawTwoApis) 4 "x" []
    rfl rfl rfl rfl (by decide)

/-! ### Unfolding lemmas for `load` -/

theorem load_zero_eq (G : Graph) (name : String) (st : LoadState) :
    load G 0 name st =
      (match st.lookup name with
       | some .loading => (st, .error (.cyclicDependency name))
       | some (.loaded m) => (st, .ok m)
       | none => (st, .error .outOfFuel)) := rfl

theorem load_succ_eq (G : Graph) (f : Nat) (name : String) (st : LoadState) :
    load G (f + 1) name st =
      (match st.lookup name with
       | some .loading => (st, .error (.cyclicDependency name))
       | some (.loaded m) => (st, .ok m)
       | none =>
         match loadDeps G f (G name).deps ((name, .loading) :: st) with
         | (st2, .error e) => (st2, .error e)
         | (st2, .ok deps) =>
           match patchup_module name (G name) with
           | .error e => (st2, .error e)
           | .ok info =>
             ((name, .loaded (ModDef.mk name deps info)) :: st2,
               .ok (ModDef.mk name deps info))) := rfl

theorem load_loading (G : Graph) (fuel : Nat) (name : String) (st : LoadState)
    (h : st.lookup name = some .loading) :
    load G fuel name st = (st, .error (.cyclicDependency name)) := by
  cases fuel with
  | zero => rw [load_zero_eq, h]
  | succ f => rw [load_succ_eq, h]

theorem load_loaded (G : Graph) (fuel : Nat) (name : String) (st : LoadState) (m : ModDef)
    (h : st.lookup name = some (.loaded m)) :
    load G fuel name st = (st, .ok m) := by
  cases fuel with
  | zero => rw [load_zero_eq, h]
  | succ f => rw [load_succ_eq, h]

theorem load_none_zero (G : Graph) (name : String) (st : LoadState)
    (h : st.lookup name = none) :
    load G 0 name st = (st, .error .outOfFuel) := by
  rw [load_zero_eq, h]

theorem load_unfold_none (G : Graph) (fuel : Nat) (name : String) (st : LoadState)
    (h : st.lookup name = none) :
    load G (fuel + 1) name st =
      (match loadDeps G fuel (G name).deps ((name, .loading) :: st) with
       | (st2, .error e) => (st2, .error e)
       | (st2, .ok deps) =>
         match patchup_module name (G name) with
         | .error e => (st2, .error e)
         | .ok info =>
           ((name, .loaded (ModDef.mk name deps info)) :: st2,
             .ok (ModDef.mk name deps info))) := by
  rw [load_succ_eq, h]

theorem loadDeps_nil (G : Graph) (fuel : Nat) (st : LoadState) :
    loadDeps G fuel [] st = (st, .ok []) := by
  cases fuel with
  | zero => rfl
  | succ f => rfl

theorem loadDeps_cons_zero (G : Graph) (k ident : String) (rest : List (String × String))
    (st : LoadState) : loadDeps G 0 ((k, ident) :: rest) st = (st, .error .outOfFuel) := rfl

theorem loadDeps_unfold_cons (G : Graph) (fuel : Nat) (k ident : String)
    (rest : List (String × String)) (st : LoadState) :
    loadDeps G (fuel + 1) ((k, ident) :: rest) st =
      (match load G fuel ident st with
       | (st1, .error e) => (st1, .error e)
       | (st1, .ok m) =>
         match loadDeps G fuel rest st1 with
         | (st2, .error e) => (st2, .error e)
         | (st2, .ok ms) => (st2, .ok ((k, m) :: ms))) := rfl
/-! ### C1: cycle detection -/

/-- C1.  Cycle detection: a load request for an identity whose load
table entry is still `Loading` fails with the cyclic-dependency error
naming that identity; the identity is marked in-progress before its own
dependencies are loaded (so even a direct self-dependency is caught);
loading the cyclic chain A→B→A fails naming A, while the acyclic chain
A→B→C loads successfully. -/
theorem load_cycle_detection :
    (∀ (G : Graph) (fuel : Nat) (name : String) (st : LoadState),
      st.lookup name = some .loading →
      load G fuel name st = (st, .error (.cyclicDependency name))) ∧
    (∀ (G : Graph) (fuel : Nat) (name : String) (st : LoadState) (k : String)
      (rest : List (String × String)), st.lookup name = none →
      (G name).deps = (k, name) :: rest →
      (load G (fuel + 2) name st).2 = .error (.cyclicDependency name)) ∧
    ((load GcycAB 10 "A" []).2 = .error (.cyclicDependency "A")) ∧
    (∃ m, (load GchainABC 10 "A" []).2 = .ok m ∧ m.name = "A") := by
  refine ⟨load_loading, ?_, rfl, ?_⟩
  · intro G fuel name st k rest h hdeps
    rw [load_unfold_none G (fuel + 1) name st h, hdeps, loadDeps_unfold_cons,
      load_loading G fuel name ((name, .loading) :: st) (lookup_cons_self name .loading st)]
  · exact ⟨ModDef.mk "A" [("B", ModDef.mk "B" [("C", ModDef.mk "C" [] infoW)] infoW)] infoW,
      rfl, rfl⟩

/-- Witness for `load_cycle_detection`: a request for an identity in
`Loading` state fails naming it, and a direct self-dependency fails
naming the module. -/
theorem load_cycle_detection_witness :
    (load GcycAB 3 "Z" [("Z", LoadEntry.loading)] =
      ([("Z", LoadEntry.loading)], .error (.cyclicDependency "Z"))) ∧
    ((load GselfA 5 "A" []).2 = .error (.cyclicDependency "A")) :=
  ⟨load_cycle_detection.1 GcycAB 3 "Z" [("Z", LoadEntry.loading)] rfl,
   load_cycle_detection.2.1 GselfA 3 "A" [] "x" [] rfl rfl⟩

/-! ### C8: load table invariants -/

theorem TablePreserved.refl (st : LoadState) : TablePreserved st st :=
  fun _ => ⟨fun h => Or.inl h, fun _ h => h, fun h => h⟩

theorem tablePreserved_trans {st1 st2 st3 : LoadState}
    (h12 : TablePreserved st1 st2) (h23 : TablePreserved st2 st3) :
    TablePreserved st1 st3 := by
  intro k
  refine ⟨?_, ?_, ?_⟩
  · intro h
    rcases (h12 k).1 h with h2 | ⟨m, h2⟩
    · exact (h23 k).1 h2
    · exact Or.inr ⟨m, (h23 k).2.1 m h2⟩
  · intro m h
    exact (h23 k).2.1 m ((h12 k).2.1 m h)
  · intro h
    exact (h23 k).2.2 ((h12 k).2.2 h)

theorem TablePreserved.insert_fresh (st : LoadState) (name : String) (e : LoadEntry)
    (h : st.lookup name = none) : TablePreserved st ((name, e) :: st) := by
  intro k
  by_cases hk : k = name
  · subst hk
    refine ⟨?_, ?_, ?_⟩
    · intro hl; rw [h] at hl; cases hl
    · intro m hl; rw [h] at hl; cases hl
    · intro hl; rw [h] at hl; cases hl
  · rw [lookup_cons_ne name k e st hk]
    exact (TablePreserved.refl st) k

theorem load_preserves (G : Graph) (fuel : Nat) :
    (∀ (name : String) (st : LoadState), TablePreserved st (load G fuel name st).1) ∧
    (∀ (specs : List (String × String)) (st : LoadState),
      TablePreserved st (loadDeps G fuel specs st).1) := by
  induction fuel with
  | zero =>
    constructor
    · intro name st
      rw [load_zero_eq]
      cases hl : st.lookup name with
      | none => exact TablePreserved.refl st
      | some e => cases e <;> exact TablePreserved.refl st
    · intro specs st
      cases specs with
      | nil => rw [loadDeps_nil]; exact TablePreserved.refl st
      | cons p rest =>
        match p with
        | (k, ident) => rw [loadDeps_cons_zero]; exact TablePreserved.refl st
  | succ f ih =>
    constructor
    · intro name st
      cases hl : st.lookup name with
      | some e =>
        cases e with
        | loading => rw [load_loading G (f + 1) name st hl]; exact TablePreserved.refl st
        | loaded m => rw [load_loaded G (f + 1) name st m hl]; exact TablePreserved.refl st
      | none =>
        rw [load_unfold_none G f name st hl]
        have h01 : TablePreserved st ((name, LoadEntry.loading) :: st) :=
          TablePreserved.insert_fresh st name .loading hl
        rcases hres : loadDeps G f (G name).deps ((name, .loading) :: st) with ⟨st2, r⟩
        have h12 : TablePreserved ((name, LoadEntry.loading) :: st) st2 := by
          have := ih.2 (G name).deps ((name, .loading) :: st)
          rw [hres] at this
          exact this
        have h02 : TablePreserved st st2 := tablePreserved_trans h01 h12
        cases r with
        | error e => exact h02
        | ok deps =>
          cases patchup_module name (G name) with
          | error e => exact h02
          | ok info =>
            intro k
            by_cases hk : k = name
            · subst hk
              refine ⟨?_, ?_, ?_⟩
              · intro hc; rw [hl] at hc; cases hc
              · intro m hc; rw [hl] at hc; cases hc
              · intro hc; rw [hl] at hc; cases hc
            · rw [lookup_cons_ne name k _ st2 hk]
              exact h02 k
    · intro specs st
      cases specs with
      | nil => rw [loadDeps_nil]; exact TablePreserved.refl st
      | cons p rest =>
        match p with
        | (k, ident) =>
          rw [loadDeps_unfold_cons]
          have h01 := ih.1 ident st
          have h12 := ih.2 rest (load G f ident st).1
          revert h01 h12
          rcases load G f ident st with ⟨st1, r⟩
          intro h01 h12
          cases r with
          | error e => exact h01
          | ok m =>
            show TablePreserved st
              (match loadDeps G f rest st1 with
               | (st2, Except.error e) => (st2, Except.error e)
               | (st2, Except.ok ms) => (st2, Except.ok ((k, m) :: ms))).1
            revert h12
            rcases loadDeps G f rest st1 with ⟨st2, r2⟩
            intro h12
            cases r2 with
            | error e => exact tablePreserved_trans h01 h12
            | ok ms => exact tablePreserved_trans h01 h12

theorem loadSeq_preserves (G : Graph) (fuel : Nat) :
    ∀ (reqs : List String) (st : LoadState), TablePreserved st (loadSeq G fuel reqs st) := by
  intro reqs
  induction reqs with
  | nil => intro st; exact TablePreserved.refl st
  | cons n rest ih =>
    intro st
    rw [loadSeq]
    exact tablePreserved_trans ((load_preserves G fuel).1 n st) (ih (load G fuel n st).1)

/-- C8.  Across any sequence of `load` calls on one Universe —
including sequences in which some load raises — no identity ever
transitions from `Loading` back to absent (it stays `Loading` or
becomes `Loaded`), `Loaded` entries never change, the table is
append-only (keys are never removed), and a load request for an
identity currently in the `Loading` state is fatal. -/
theorem load_table_invariants :
    (∀ (G : Graph) (fuel : Nat) (reqs : List String) (st : LoadState) (k : String),
      (st.lookup k = some .loading →
        (loadSeq G fuel reqs st).lookup k = some .loading ∨
          ∃ m, (loadSeq G fuel reqs st).lookup k = some (.loaded m)) ∧
      (∀ m, st.lookup k = some (.loaded m) →
        (loadSeq G fuel reqs st).lookup k = some (.loaded m)) ∧
      ((st.lookup k).isSome → ((loadSeq G fuel reqs st).lookup k).isSome)) ∧
    (∀ (G : Graph) (fuel : Nat) (name : String) (st : LoadState),
      st.lookup name = some .loading →
      (load G fuel name st).2 = .error (.cyclicDependency name)) := by
  constructor
  · intro G fuel reqs st k
    exact loadSeq_preserves G fuel reqs st k
  · intro G fuel name st h
    rw [load_loading G fuel name st h]

/-- Witness for `load_table_invariants`: with an identity `Q` already
in `Loading` state, a sequence loading `A` keeps `Q`'s entry, and a
direct load request for `Q` is the cyclic-dependency failure. -/
theorem load_table_invariants_witness :
    ((loadSeq GchainABC 10 ["A"] [("Q", LoadEntry.loading)]).lookup "Q" =
        some LoadEntry.loading ∨
      ∃ m, (loadSeq GchainABC 10 ["A"] [("Q", LoadEntry.loading)]).lookup "Q" =
        some (LoadEntry.loaded m)) ∧
    ((load GchainABC 10 "Q" [("Q", LoadEntry.loading)]).2 =
      .error (.cyclicDependency "Q")) :=
  ⟨(load_table_invariants.1 GchainABC 10 ["A"] [("Q", LoadEntry.loading)] "Q").1 rfl,
   load_table_invariants.2 GchainABC 10 "Q" [("Q", LoadEntry.loading)] rfl⟩

/-! ### Unfolding lemmas for the dependency mapper -/

theorem instantiate_mk_eq {α : Type} (f : ModDef → List (String × α) → α) (n : String)
    (deps : List (String × ModDef)) (info : PatchedInfo) (st : MState α) :
    instantiate f (.mk n deps info) st =
      (match st.instances.lookup n with
       | some v => (v, st)
       | none =>
         match instantiateList f deps st with
         | (ds, st1) =>
           (f (.mk n deps info) ds,
             ⟨(n, f (.mk n deps info) ds) :: st1.instances, st1.trace ++ [(n, ds)]⟩)) := rfl

theorem instantiateList_nil {α : Type} (f : ModDef → List (String × α) → α) (st : MState α) :
    instantiateList f [] st = ([], st) := rfl

theorem instantiateList_cons {α : Type} (f : ModDef → List (String × α) → α) (k : String)
    (d : ModDef) (rest : List (String × ModDef)) (st : MState α) :
    instantiateList f ((k, d) :: rest) st =
      (match instantiate f d st with
       | (v, st1) =>
         match instantiateList f rest st1 with
         | (vs, st2) => ((k, v) :: vs, st2)) := rfl

theorem instValue_mk_eq {α : Type} (f : ModDef → List (String × α) → α) (n : String)
    (deps : List (String × ModDef)) (info : PatchedInfo) :
    instValue f (.mk n deps info) = f (.mk n deps info) (instValueList f deps) := rfl

theorem instValueList_cons {α : Type} (f : ModDef → List (String × α) → α) (k : String)
    (d : ModDef) (rest : List (String × ModDef)) :
    instValueList f ((k, d) :: rest) = (k, instValue f d) :: instValueList f rest := rfl

theorem height_mk_eq (n : String) (deps : List (String × ModDef)) (info : PatchedInfo) :
    (ModDef.mk n deps info).height = 1 + heightList deps := rfl

theorem heightList_cons (k : String) (d : ModDef) (rest : List (String × ModDef)) :
    heightList ((k, d) :: rest) = max d.height (heightList rest) := rfl

theorem height_pos (M : ModDef) : 1 ≤ M.height := by
  cases M with
  | mk n deps info => rw [height_mk_eq]; omega

theorem instantiate_hit {α : Type} (f : ModDef → List (String × α) → α) (mod : ModDef)
    (st : MState α) (v : α) (h : st.instances.lookup mod.name = some v) :
    instantiate f mod st = (v, st) := by
  cases mod with
  | mk n deps info =>
    simp only [ModDef.name] at h
    rw [instantiate_mk_eq, h]

theorem instantiate_result_cached {α : Type} (f : ModDef → List (String × α) → α)
    (mod : ModDef) (st : MState α) :
    (instantiate f mod st).2.instances.lookup mod.name = some (instantiate f mod st).1 := by
  cases mod with
  | mk n deps info =>
    rw [instantiate_mk_eq]
    simp only [ModDef.name]
    cases hl : st.instances.lookup n with
    | some v => exact hl
    | none =>
      rcases instantiateList f deps st with ⟨ds, st1⟩
      exact lookup_cons_self n _ st1.instances

/-! ### C9: termination and recursion-depth bound -/

theorem instantiateFuel_of_height {α : Type} (f : ModDef → List (String × α) → α) :
    ∀ d : Nat,
      (∀ (M : ModDef) (st : MState α), M.height ≤ d →
        instantiateFuel f d M st = some (instantiate f M st)) ∧
      (∀ (l : List (String × ModDef)) (st : MState α), heightList l ≤ d →
        instantiateListWith (instantiateFuel f d) l st = some (instantiateList f l st)) := by
  intro d
  induction d with
  | zero =>
    constructor
    · intro M st h
      exact absurd (Nat.le_trans (height_pos M) h) (by omega)
    · intro l st h
      cases l with
      | nil => rfl
      | cons p rest =>
        match p with
        | (k, dep) =>
          rw [heightList_cons] at h
          exact absurd (Nat.le_trans (height_pos dep) (Nat.le_trans (Nat.le_max_left _ _) h))
            (by omega)
  | succ d ihd =>
    have Pd1 : ∀ (M : ModDef) (st : MState α), M.height ≤ d + 1 →
        instantiateFuel f (d + 1) M st = some (instantiate f M st) := by
      intro M st h
      cases M with
      | mk n deps info =>
        rw [instantiateFuel, instantiate_mk_eq]
        simp only [ModDef.name]
        cases hl : st.instances.lookup n with
        | some v => rfl
        | none =>
          rw [height_mk_eq] at h
          rw [ihd.2 deps st (by omega)]
    refine ⟨Pd1, ?_⟩
    intro l
    induction l with
    | nil => intro st _; rfl
    | cons p rest ihl =>
      intro st h
      match p with
      | (k, dep) =>
        rw [heightList_cons] at h
        rw [instantiateListWith, instantiateList_cons,
          Pd1 dep st (Nat.le_trans (Nat.le_max_left _ _) h)]
        rcases instantiate f dep st with ⟨v, st1⟩
        simp only
        rw [ihl st1 (Nat.le_trans (Nat.le_max_right _ _) h)]

/-- C9.  For every finite module-definition graph (a tree of Module
Definitions is finite and acyclic by construction), `instantiate`
terminates — it is a total function — and its recursion depth is
bounded by the length of the longest dependency chain: running the
depth-budgeted `instantiateFuel` with budget `M.height` (the number of
modules on the longest chain under `M`) already yields the untruncated
result. -/
theorem instantiate_terminates_depth_bound {α : Type}
    (f : ModDef → List (String × α) → α) (M : ModDef) (st : MState α) :
    instantiateFuel f M.height M st = some (instantiate f M st) :=
  (instantiateFuel_of_height f M.height).1 M st (Nat.le_refl _)

/-! ### Submodules and graph-unfolding lemmas -/

theorem sizeOf_snd_lt_of_mem {p : String × ModDef} {deps : List (String × ModDef)}
    (hp : p ∈ deps) : sizeOf p.2 < sizeOf deps := by
  have h1 : sizeOf p < sizeOf deps := List.sizeOf_lt_of_mem hp
  rcases p with ⟨k, d⟩
  simp only [Prod.mk.sizeOf_spec] at h1
  simp only
  omega

theorem SubMod.sizeOf_le {s m : ModDef} (h : SubMod s m) : sizeOf s ≤ sizeOf m := by
  induction h with
  | refl => exact Nat.le_refl _
  | step n deps info p hp hsub ih =>
    have h1 : sizeOf p.2 < sizeOf deps := sizeOf_snd_lt_of_mem hp
    have h2 : sizeOf deps < sizeOf (ModDef.mk n deps info) := by
      simp only [ModDef.mk.sizeOf_spec]
      omega
    omega

theorem SubMod.sizeOf_lt {s : ModDef} {n : String} {deps : List (String × ModDef)}
    {info : PatchedInfo} {p : String × ModDef} (hp : p ∈ deps) (h : SubMod s p.2) :
    sizeOf s < sizeOf (ModDef.mk n deps info) := by
  have h1 : sizeOf s ≤ sizeOf p.2 := h.sizeOf_le
  have h2 : sizeOf p.2 < sizeOf deps := sizeOf_snd_lt_of_mem hp
  have h3 : sizeOf deps < sizeOf (ModDef.mk n deps info) := by
    simp only [ModDef.mk.sizeOf_spec]
    omega
  omega

theorem FollowsGraph.sub {D : String → List (String × String)} {I : String → PatchedInfo}
    {s m : ModDef} (hs : SubMod s m) (hm : FollowsGraph D I m) : FollowsGraph D I s := by
  revert hm
  induction hs with
  | refl => exact fun hm => hm
  | step n deps info p hp hsub ih =>
    intro hm
    cases hm
    rename_i hdeps hmap
    exact ih (hdeps p hp)

theorem depsList_unique {D : String → List (String × String)} {I : String → PatchedInfo} :
    ∀ l1 l2 : List (String × ModDef),
    l1.map (fun p => (p.1, p.2.name)) = l2.map (fun p => (p.1, p.2.name)) →
    (∀ p ∈ l1, ∀ m2 : ModDef, FollowsGraph D I m2 → p.2.name = m2.name → p.2 = m2) →
    (∀ p ∈ l2, FollowsGraph D I p.2) → l1 = l2 := by
  intro l1
  induction l1 with
  | nil =>
    intro l2 hmap _ _
    cases l2 with
    | nil => rfl
    | cons p2 rest2 => simp at hmap
  | cons p1 rest1 ih =>
    intro l2 hmap hu hf
    cases l2 with
    | nil => simp at hmap
    | cons p2 rest2 =>
      simp only [List.map_cons, List.cons.injEq] at hmap
      obtain ⟨hhead, htail⟩ := hmap
      rw [Prod.mk.injEq] at hhead
      obtain ⟨hk, hn⟩ := hhead
      have h2 : p1.2 = p2.2 :=
        hu p1 (List.mem_cons_self p1 rest1) p2.2 (hf p2 (List.mem_cons_self p2 rest2)) hn
      have htl : rest1 = rest2 :=
        ih rest2 htail (fun p hp => hu p (List.mem_cons_of_mem p1 hp))
          (fun p hp => hf p (List.mem_cons_of_mem p2 hp))
      rcases p1 with ⟨k1, d1⟩
      rcases p2 with ⟨k2, d2⟩
      simp only at hk h2
      rw [hk, h2, htl]

theorem FollowsGraph.unique {D : String → List (String × String)} {I : String → PatchedInfo} :
    ∀ {m1 : ModDef}, FollowsGraph D I m1 →
    ∀ {m2 : ModDef}, FollowsGraph D I m2 → m1.name = m2.name → m1 = m2 := by
  intro m1 h1
  induction h1 with
  | mk n deps hmap hdeps ih =>
    intro m2 h2 hname
    cases h2 with
    | mk n2 deps2 hmap2 hdeps2 =>
      simp only [ModDef.name] at hname
      subst hname
      have hmaps : deps.map (fun p => (p.1, p.2.name)) = deps2.map (fun p => (p.1, p.2.name)) := by
        rw [hmap, hmap2]
      have hdeq : deps = deps2 :=
        depsList_unique deps deps2 hmaps (fun p hp m2 hm2 hnm => ih p hp hm2 hnm) hdeps2
      rw [hdeq]

theorem instantiate_miss_eq {α : Type} (f : ModDef → List (String × α) → α) (n : String)
    (deps : List (String × ModDef)) (info : PatchedInfo) (st : MState α)
    (h : st.instances.lookup n = none) :
    instantiate f (.mk n deps info) st =
      (f (.mk n deps info) (instantiateList f deps st).1,
       ⟨(n, f (.mk n deps info) (instantiateList f deps st).1) ::
           (instantiateList f deps st).2.instances,
         (instantiateList f deps st).2.trace ++ [(n, (instantiateList f deps st).1)]⟩) := by
  rw [instantiate_mk_eq, h]

theorem instantiateList_cons_eta {α : Type} (f : ModDef → List (String × α) → α)
    (k : String) (d : ModDef) (rest : List (String × ModDef)) (st : MState α) :
    instantiateList f ((k, d) :: rest) st =
      ((k, (instantiate f d st).1) :: (instantiateList f rest (instantiate f d st).2).1,
        (instantiateList f rest (instantiate f d st).2).2) := rfl

/-! ### The dependency-mapper invariant -/

theorem MapInv.empty (D : String → List (String × String)) (I : String → PatchedInfo)
    {α : Type} (f : ModDef → List (String × α) → α) :
    MapInv D I f ⟨[], []⟩ := by
  refine ⟨?_, ?_, ?_, ?_, ?_⟩
  · intro n v h
    simp [List.lookup] at h
  · intro n
    simp [List.lookup]
  · simp
  · intro e he
    simp at he
  · intro i h
    simp at h

mutual

/-- Memoized instantiation of a graph unfolding computes the fully
constructed value, preserves the mapper invariant, appends only
invocations of submodules to the trace, never drops or changes cached
instances, only caches names of submodules, and leaves the module's own
value cached. -/
theorem instantiate_correct {α : Type} (D : String → List (String × String))
    (I : String → PatchedInfo) (f : ModDef → List (String × α) → α) (mod : ModDef)
    (st : MState α) (hM : FollowsGraph D I mod) (hInv : MapInv D I f st) :
    (instantiate f mod st).1 = instValue f mod ∧
    MapInv D I f (instantiate f mod st).2 ∧
    (∃ ext, (instantiate f mod st).2.trace = st.trace ++ ext ∧
      ∀ e ∈ ext, ∃ s, SubMod s mod ∧ s.name = e.1) ∧
    (∀ n' v', st.instances.lookup n' = some v' →
      (instantiate f mod st).2.instances.lookup n' = some v') ∧
    (∀ n', ((instantiate f mod st).2.instances.lookup n').isSome →
      (st.instances.lookup n').isSome ∨ ∃ s, SubMod s mod ∧ s.name = n') ∧
    (instantiate f mod st).2.instances.lookup mod.name = some (instValue f mod) := by
  cases mod with
  | mk n deps info =>
    cases hM
    rename_i hdeps hmap
    have hFG : FollowsGraph D I (ModDef.mk n deps (I n)) := FollowsGraph.mk n deps hmap hdeps
    cases hl : st.instances.lookup n with
    | some v =>
      rw [instantiate_hit f (ModDef.mk n deps (I n)) st v hl]
      obtain ⟨m', hm', hname', hval⟩ := hInv.cache n v hl
      have hmeq : m' = ModDef.mk n deps (I n) :=
        FollowsGraph.unique hm' hFG (by rw [hname']; rfl)
      rw [hmeq] at hval
      refine ⟨hval, hInv, ⟨[], by simp, by simp⟩, fun n' v' h => h,
        fun n' h => Or.inl h, ?_⟩
      simp only [ModDef.name]
      rw [hl, hval]
    | none =>
      obtain ⟨IH1, IH2, ⟨ext, IH3, IH3b⟩, IH4, IH5, IH6⟩ :=
        instantiateList_correct D I f deps st hdeps hInv
      have hlook1 : (instantiateList f deps st).2.instances.lookup n = none := by
        cases hcase : (instantiateList f deps st).2.instances.lookup n with
        | none => rfl
        | some w =>
          exfalso
          rcases IH5 n (by rw [hcase]; rfl) with hsome | ⟨p, hp, s, hsub, hsname⟩
          · rw [hl] at hsome
            cases hsome
          · have hsFG : FollowsGraph D I s := FollowsGraph.sub hsub (hdeps p hp)
            have hseq : s = ModDef.mk n deps (I n) :=
              FollowsGraph.unique hsFG hFG (by rw [hsname]; rfl)
            have hlt : sizeOf s < sizeOf (ModDef.mk n deps (I n)) :=
              SubMod.sizeOf_lt hp hsub
            rw [hseq] at hlt
            exact absurd hlt (Nat.lt_irrefl _)
      have hmemtrace : n ∉ (instantiateList f deps st).2.trace.map Prod.fst := by
        intro hmem
        have := (IH2.keys n).mpr hmem
        rw [hlook1] at this
        cases this
      rw [instantiate_miss_eq f n deps (I n) st hl]
      rw [IH1]
      have hvalue : f (ModDef.mk n deps (I n)) (instValueList f deps) =
          instValue f (ModDef.mk n deps (I n)) := (instValue_mk_eq f n deps (I n)).symm
      refine ⟨hvalue, ?_, ?_, ?_, ?_, ?_⟩
      · -- the invariant for the new state
        refine ⟨?_, ?_, ?_, ?_, ?_⟩
        · intro n' v' h
          by_cases hn' : n' = n
          · rw [hn'] at h
            rw [lookup_cons_self] at h
            rw [hn']
            exact ⟨ModDef.mk n deps (I n), hFG, rfl, by
              cases h
              exact hvalue⟩
          · rw [lookup_cons_ne n n' _ _ hn'] at h
            exact IH2.cache n' v' h
        · intro n'
          simp only [List.map_append, List.map_cons, List.map_nil]
          by_cases hn' : n' = n
          · rw [hn', lookup_cons_self]
            simp
          · rw [lookup_cons_ne n n' _ _ hn']
            rw [IH2.keys n']
            simp [hn']
        · simp only [List.map_append, List.map_cons, List.map_nil]
          rw [List.nodup_append]
          exact ⟨IH2.nodupTrace, List.nodup_singleton n,
            fun a ha hb => hmemtrace (by
              rw [List.mem_singleton] at hb
              rw [hb] at ha
              exact ha)⟩
        · intro e he
          rw [List.mem_append] at he
          rcases he with he | he
          · exact IH2.traceArgs e he
          · rw [List.mem_singleton] at he
            subst he
            exact ⟨ModDef.mk n deps (I n), hFG, rfl, rfl⟩
        · intro i hi q hq
          have hlen : i < (instantiateList f deps st).2.trace.length + 1 := by
            simpa using hi
          by_cases hilt : i < (instantiateList f deps st).2.trace.length
          · have hget : ((((instantiateList f deps st).2.trace ++
                [(n, instValueList f deps)]).get ⟨i, hi⟩)) =
                (instantiateList f deps st).2.trace.get ⟨i, hilt⟩ := by
              simp only [List.get_eq_getElem]
              exact List.getElem_append_left hilt
            rw [hget] at hq
            have := IH2.traceOrder i hilt q hq
            rw [List.take_append_of_le_length (Nat.le_of_lt hilt)]
            exact this
          · have hieq : i = (instantiateList f deps st).2.trace.length := by omega
            have hget : ((((instantiateList f deps st).2.trace ++
                [(n, instValueList f deps)]).get ⟨i, hi⟩)) = (n, instValueList f deps) := by
              simp only [List.get_eq_getElem]
              exact List.getElem_concat_length _ _ _ hieq _
            rw [hget] at hq
            simp only at hq
            rw [← hmap] at hq
            rw [List.mem_map] at hq
            obtain ⟨p, hp, hpq⟩ := hq
            have hcached := IH6 p hp
            have hmem : p.2.name ∈ (instantiateList f deps st).2.trace.map Prod.fst :=
              (IH2.keys p.2.name).mp (by rw [hcached]; rfl)
            rw [hieq, List.take_left]
            rw [← hpq]
            exact hmem
      · refine ⟨ext ++ [(n, instValueList f deps)], by rw [IH3, List.append_assoc], ?_⟩
        intro e he
        rw [List.mem_append] at he
        rcases he with he | he
        · obtain ⟨p, hp, s, hsub, hsname⟩ := IH3b e he
          exact ⟨s, SubMod.step s n deps (I n) p hp hsub, hsname⟩
        · rw [List.mem_singleton] at he
          subst he
          exact ⟨ModDef.mk n deps (I n), SubMod.refl _, rfl⟩
      · intro n' v' h
        have h2 := IH4 n' v' h
        have hne : n' ≠ n := by
          intro he
          rw [he, hlook1] at h2
          cases h2
        rw [lookup_cons_ne n n' _ _ hne]
        exact h2
      · intro n' h
        by_cases hn' : n' = n
        · exact Or.inr ⟨ModDef.mk n deps (I n), SubMod.refl _, hn'.symm⟩
        · rw [lookup_cons_ne n n' _ _ hn'] at h
          rcases IH5 n' h with hsome | ⟨p, hp, s, hsub, hsname⟩
          · exact Or.inl hsome
          · exact Or.inr ⟨s, SubMod.step s n deps (I n) p hp hsub, hsname⟩
      · simp only [ModDef.name]
        rw [lookup_cons_self, hvalue]

theorem instantiateList_correct {α : Type} (D : String → List (String × String))
    (I : String → PatchedInfo) (f : ModDef → List (String × α) → α)
    (l : List (String × ModDef)) (st : MState α)
    (hL : ∀ p ∈ l, FollowsGraph D I p.2) (hInv : MapInv D I f st) :
    (instantiateList f l st).1 = instValueList f l ∧
    MapInv D I f (instantiateList f l st).2 ∧
    (∃ ext, (instantiateList f l st).2.trace = st.trace ++ ext ∧
      ∀ e ∈ ext, ∃ p ∈ l, ∃ s, SubMod s p.2 ∧ s.name = e.1) ∧
    (∀ n' v', st.instances.lookup n' = some v' →
      (instantiateList f l st).2.instances.lookup n' = some v') ∧
    (∀ n', ((instantiateList f l st).2.instances.lookup n').isSome →
      (st.instances.lookup n').isSome ∨ ∃ p ∈ l, ∃ s, SubMod s p.2 ∧ s.name = n') ∧
    (∀ p ∈ l, (instantiateList f l st).2.instances.lookup p.2.name =
      some (instValue f p.2)) := by
  cases l with
  | nil =>
    rw [instantiateList_nil]
    refine ⟨rfl, hInv, ⟨[], by simp, by simp⟩, fun n' v' h => h, fun n' h => Or.inl h, ?_⟩
    intro p hp
    cases hp
  | cons q rest =>
    match q with
    | (k, d) =>
      have hd : FollowsGraph D I d := hL (k, d) (List.mem_cons_self _ _)
      obtain ⟨IHd1, IHd2, ⟨ext1, IHd3, IHd3b⟩, IHd4, IHd5, IHd6⟩ :=
        instantiate_correct D I f d st hd hInv
      obtain ⟨IHr1, IHr2, ⟨ext2, IHr3, IHr3b⟩, IHr4, IHr5, IHr6⟩ :=
        instantiateList_correct D I f rest (instantiate f d st).2
          (fun p hp => hL p (List.mem_cons_of_mem _ hp)) IHd2
      rw [instantiateList_cons_eta]
      refine ⟨?_, IHr2, ?_, ?_, ?_, ?_⟩
      · rw [instValueList_cons, IHd1, IHr1]
      · refine ⟨ext1 ++ ext2, by rw [IHr3, IHd3, List.append_assoc], ?_⟩
        intro e he
        rw [List.mem_append] at he
        rcases he with he | he
        · obtain ⟨s, hsub, hsname⟩ := IHd3b e he
          exact ⟨(k, d), List.mem_cons_self _ _, s, hsub, hsname⟩
        · obtain ⟨p, hp, s, hsub, hsname⟩ := IHr3b e he
          exact ⟨p, List.mem_cons_of_mem _ hp, s, hsub, hsname⟩
      · intro n' v' h
        exact IHr4 n' v' (IHd4 n' v' h)
      · intro n' h
        rcases IHr5 n' h with hsome | ⟨p, hp, s, hsub, hsname⟩
        · rcases IHd5 n' hsome with hsome2 | ⟨s, hsub, hsname⟩
          · exact Or.inl hsome2
          · exact Or.inr ⟨(k, d), List.mem_cons_self _ _, s, hsub, hsname⟩
        · exact Or.inr ⟨p, List.mem_cons_of_mem _ hp, s, hsub, hsname⟩
      · intro p hp
        rcases List.mem_cons.mp hp with hp1 | hp2
        · subst hp1
          exact IHr4 d.name (instValue f d) IHd6
        · exact IHr6 p hp2

end

/-! ### Reachability along the definition graph -/

theorem gReach_trans {D : String → List (String × String)} {a b c : String}
    (h1 : GReach D a b) (h2 : GReach D b c) : GReach D a c := by
  induction h2 with
  | refl => exact h1
  | step b' c' k h hm ih => exact GReach.step b' c' k ih hm

theorem SubMod.greach {D : String → List (String × String)} {I : String → PatchedInfo}
    {s m : ModDef} (hs : SubMod s m) (hm : FollowsGraph D I m) :
    GReach D m.name s.name := by
  revert hm
  induction hs with
  | refl => exact fun _ => GReach.refl
  | step n deps info p hp hsub ih =>
    intro hm
    cases hm
    rename_i hdeps hmap
    have hedge : (p.1, p.2.name) ∈ D n := by
      rw [← hmap]
      exact List.mem_map_of_mem _ hp
    have h1 : GReach D n p.2.name := GReach.step n p.2.name p.1 GReach.refl hedge
    simp only [ModDef.name]
    exact gReach_trans h1 (ih (hdeps p hp))

theorem greach_mem_trace {D : String → List (String × String)} {I : String → PatchedInfo}
    {α : Type} {f : ModDef → List (String × α) → α} {st : MState α}
    (hInv : MapInv D I f st) {a b : String} (h : GReach D a b)
    (ha : a ∈ st.trace.map Prod.fst) : b ∈ st.trace.map Prod.fst := by
  induction h with
  | refl => exact ha
  | step b' c k hr hm ih =>
    rw [List.mem_map] at ih
    obtain ⟨e, he, heb⟩ := ih
    rw [List.mem_iff_getElem] at he
    obtain ⟨i, hlen, hei⟩ := he
    have hq : (k, c) ∈ D ((st.trace.get ⟨i, hlen⟩).1) := by
      simp only [List.get_eq_getElem]
      rw [hei, heb]
      exact hm
    have hc := hInv.traceOrder i hlen (k, c) hq
    exact List.map_subset Prod.fst (List.take_subset i st.trace) hc

/-! ### Soundness of the executable graph-unfolding check -/

mutual

theorem followsGraphB_sound (D : String → List (String × String)) (I : String → PatchedInfo) :
    ∀ m : ModDef, followsGraphB D I m = true → FollowsGraph D I m
  | .mk n deps info, h => by
    rw [followsGraphB] at h
    rw [Bool.and_assoc, Bool.and_eq_true, Bool.and_eq_true] at h
    obtain ⟨hmap, hinfo, hlist⟩ := h
    rw [decide_eq_true_eq] at hmap hinfo
    have hdeps := followsGraphListB_sound D I deps hlist
    rw [hinfo]
    exact FollowsGraph.mk n deps hmap hdeps

theorem followsGraphListB_sound (D : String → List (String × String))
    (I : String → PatchedInfo) :
    ∀ l : List (String × ModDef), followsGraphListB D I l = true →
      ∀ p ∈ l, FollowsGraph D I p.2
  | [], _, p, hp => absurd hp (by simp)
  | q :: rest, h, p, hp => by
    rw [followsGraphListB, Bool.and_eq_true] at h
    rcases List.mem_cons.mp hp with h1 | h2
    · rw [h1]
      exact followsGraphB_sound D I q.2 h.1
    · exact followsGraphListB_sound D I rest h.2 p h2

end

/-! ### C2: topological instantiation order -/

/-- C2.  Running the dependency mapper on an unfolding of the
definition graph `(D, I)` from an empty cache: the instantiator runs
exactly once per unique definition (the trace names are duplicate-free
and are exactly the identities reachable from the root); every
invocation is preceded by the completed invocations of all the
module's dependencies; and every invocation receives the mapping from
each local dependency name to that dependency's fully constructed
instance — the same value left in the cache at the end — never a
partial one. -/
theorem instantiator_topological_order {α : Type} (D : String → List (String × String))
    (I : String → PatchedInfo) (f : ModDef → List (String × α) → α) (M : ModDef)
    (hM : FollowsGraph D I M) :
    (((instantiate f M ⟨[], []⟩).2.trace.map Prod.fst).Nodup) ∧
    (∀ x, x ∈ (instantiate f M ⟨[], []⟩).2.trace.map Prod.fst ↔ GReach D M.name x) ∧
    (∀ i, ∀ h : i < (instantiate f M ⟨[], []⟩).2.trace.length,
      ∀ q ∈ D (((instantiate f M ⟨[], []⟩).2.trace.get ⟨i, h⟩).1),
        q.2 ∈ ((instantiate f M ⟨[], []⟩).2.trace.take i).map Prod.fst) ∧
    (∀ e ∈ (instantiate f M ⟨[], []⟩).2.trace, ∃ m, FollowsGraph D I m ∧ m.name = e.1 ∧
      e.2 = instValueList f m.deps ∧
      ∀ p ∈ m.deps, (instantiate f M ⟨[], []⟩).2.instances.lookup p.2.name =
        some (instValue f p.2)) := by
  obtain ⟨H1, H2, ⟨ext, H3, H3b⟩, H4, H5, H6⟩ :=
    instantiate_correct D I f M ⟨[], []⟩ hM (MapInv.empty D I f)
  refine ⟨H2.nodupTrace, ?_, H2.traceOrder, ?_⟩
  · intro x
    constructor
    · intro hx
      rw [H3] at hx
      simp only [List.nil_append] at hx
      rw [List.mem_map] at hx
      obtain ⟨e, he, hex⟩ := hx
      obtain ⟨s, hsub, hsname⟩ := H3b e he
      have hre := SubMod.greach hsub hM
      rw [hsname, hex] at hre
      exact hre
    · intro hreach
      have hroot : M.name ∈ (instantiate f M ⟨[], []⟩).2.trace.map Prod.fst :=
        (H2.keys M.name).mp (by rw [H6]; rfl)
      exact greach_mem_trace H2 hreach hroot
  · intro e he
    obtain ⟨m, hmFG, hmname, hargs⟩ := H2.traceArgs e he
    cases hmFG
    rename_i nm depsm hmapm hdepsm
    refine ⟨ModDef.mk nm depsm (I nm), FollowsGraph.mk nm depsm hmapm hdepsm,
      hmname, hargs, ?_⟩
    intro p hp
    simp only [ModDef.name] at hmname
    have hmmem : nm ∈ (instantiate f M ⟨[], []⟩).2.trace.map Prod.fst := by
      rw [hmname]
      exact List.mem_map_of_mem Prod.fst he
    have hedge : (p.1, p.2.name) ∈ D nm := by
      rw [← hmapm]
      exact List.mem_map_of_mem _ hp
    have hpmem : p.2.name ∈ (instantiate f M ⟨[], []⟩).2.trace.map Prod.fst :=
      greach_mem_trace H2 (GReach.step nm p.2.name p.1 GReach.refl hedge) hmmem
    have hsome := (H2.keys p.2.name).mpr hpmem
    obtain ⟨v, hv⟩ := Option.isSome_iff_exists.mp hsome
    obtain ⟨m', hm'FG, hm'name, hveq⟩ := H2.cache p.2.name v hv
    have hpFG : FollowsGraph D I p.2 := hdepsm p hp
    have hm'eq : m' = p.2 := FollowsGraph.unique hm'FG hpFG hm'name
    rw [hm'eq] at hveq
    rw [hv, hveq]

/-- Witness for `instantiator_topological_order`: on the diamond, the
instantiator ran exactly once per module. -/
theorem instantiator_topological_order_witness :
    ((instantiate serI Md ⟨[], []⟩).2.trace.map Prod.fst).Nodup :=
  (instantiator_topological_order Dd Id0 serI Md
    (followsGraphB_sound Dd Id0 Md (by decide))).1

/-! ### C3: memoization -/

theorem load_success_lookup (G : Graph) (fuel : Nat) (name : String) (st st' : LoadState)
    (m : ModDef) (h : load G fuel name st = (st', .ok m)) :
    st'.lookup name = some (.loaded m) := by
  cases fuel with
  | zero =>
    cases hl : st.lookup name with
    | some e =>
      cases e with
      | loading =>
        rw [load_loading G 0 name st hl, Prod.mk.injEq] at h
        exact absurd h.2 (by simp)
      | loaded m' =>
        rw [load_loaded G 0 name st m' hl, Prod.mk.injEq] at h
        rw [Except.ok.injEq] at h
        rw [← h.1, hl, h.2]
    | none =>
      rw [load_none_zero G name st hl, Prod.mk.injEq] at h
      exact absurd h.2 (by simp)
  | succ f =>
    cases hl : st.lookup name with
    | some e =>
      cases e with
      | loading =>
        rw [load_loading G (f + 1) name st hl, Prod.mk.injEq] at h
        exact absurd h.2 (by simp)
      | loaded m' =>
        rw [load_loaded G (f + 1) name st m' hl, Prod.mk.injEq] at h
        rw [Except.ok.injEq] at h
        rw [← h.1, hl, h.2]
    | none =>
      rw [load_unfold_none G f name st hl] at h
      revert h
      rcases loadDeps G f (G name).deps ((name, .loading) :: st) with ⟨st2, r⟩
      intro h
      cases r with
      | error e =>
        simp only at h
        rw [Prod.mk.injEq] at h
        exact absurd h.2 (by simp)
      | ok deps =>
        revert h
        cases patchup_module name (G name) with
        | error e =>
          intro h
          simp only at h
          rw [Prod.mk.injEq] at h
          exact absurd h.2 (by simp)
        | ok info =>
          intro h
          simp only at h
          rw [Prod.mk.injEq, Except.ok.injEq] at h
          rw [← h.1, ← h.2, lookup_cons_self]

/-- C3.  Memoization: a successful `load` leaves the Module Definition
cached, and any later `load` of the same unique identity returns the
identical cached object with the table unchanged (no re-parse); a
mapper's `instantiate` caches its result, and calling it again for the
same definition returns the identical instance with the mapper state
unchanged; concretely, in the diamond d→{b,c}→a, the instantiators of
`b` and of `c` are each handed the one shared `a` instance. -/
theorem load_and_instantiate_memoized :
    (∀ (G : Graph) (fuel fuel2 : Nat) (name : String) (st st' : LoadState) (m : ModDef),
      load G fuel name st = (st', .ok m) → load G fuel2 name st' = (st', .ok m)) ∧
    (∀ (α : Type) (f : ModDef → List (String × α) → α) (mod : ModDef) (st : MState α)
      (v : α) (st' : MState α), instantiate f mod st = (v, st') →
      instantiate f mod st' = (v, st')) ∧
    ((instantiate serI Md ⟨[], []⟩).2.trace.lookup "b" = some [("a", "a()")] ∧
     (instantiate serI Md ⟨[], []⟩).2.trace.lookup "c" = some [("a", "a()")] ∧
     (instantiate serI Md ⟨[], []⟩).2.instances.lookup "a" = some "a()") := by
  refine ⟨?_, ?_, ?_, ?_, ?_⟩
  · intro G fuel fuel2 name st st' m h
    exact load_loaded G fuel2 name st' m (load_success_lookup G fuel name st st' m h)
  · intro α f mod st v st' h
    have hc := instantiate_result_cached f mod st
    rw [h] at hc
    exact instantiate_hit f mod st' v hc
  · rfl
  · rfl
  · rfl

/-- Witness for `load_and_instantiate_memoized`: a second `instantiate`
of the already-instantiated module `a` returns the identical cached
instance with the state unchanged. -/
theorem load_and_instantiate_memoized_witness :
    instantiate serI Ma ⟨[("a", "a()")], [("a", [])]⟩ =
      ("a()", ⟨[("a", "a()")], [("a", [])]⟩) :=
  load_and_instantiate_memoized.2.1 String serI Ma ⟨[], []⟩ "a()"
    ⟨[("a", "a()")], [("a", [])]⟩ rfl

/-! ### C6: cross-wiring and graph isomorphism -/

mutual

theorem topology_match : ∀ M : ModDef,
    apiTopology (instValue recipe_instantiator M) =
      testTopology (instValue test_instantiator M)
  | .mk n deps info => by
    rw [instValue_mk_eq, instValue_mk_eq]
    show NameTree.node (apiTopologyList (instValueList recipe_instantiator deps)) =
      NameTree.node (testTopologyList (instValueList test_instantiator deps))
    rw [topology_match_list deps]

theorem topology_match_list : ∀ l : List (String × ModDef),
    apiTopologyList (instValueList recipe_instantiator l) =
      testTopologyList (instValueList test_instantiator l)
  | [] => rfl
  | (k, d) :: rest => by
    rw [instValueList_cons, instValueList_cons]
    show (k, apiTopology (instValue recipe_instantiator d)) ::
        apiTopologyList (instValueList recipe_instantiator rest) =
      (k, testTopology (instValue test_instantiator d)) ::
        testTopologyList (instValueList test_instantiator rest)
    rw [topology_match d, topology_match_list rest]

end

theorem create_fold_fst {α : Type} (D : String → List (String × String))
    (I : String → PatchedInfo) (f : ModDef → List (String × α) → α) :
    ∀ (tl : List (String × ModDef)) (acc : List (String × α)) (st : MState α),
    (∀ p ∈ tl, FollowsGraph D I p.2) → MapInv D I f st →
    (tl.foldl (fun acc2 p =>
        match instantiate f p.2 acc2.2 with
        | (inst, st') => (acc2.1 ++ [(p.1, inst)], st')) (acc, st)).1 =
      acc ++ tl.map (fun p => (p.1, instValue f p.2)) := by
  intro tl
  induction tl with
  | nil =>
    intro acc st _ _
    simp
  | cons q rest ih =>
    intro acc st hFG hInv
    obtain ⟨H1, H2, _, _, _, _⟩ :=
      instantiate_correct D I f q.2 st (hFG q (List.mem_cons_self q rest)) hInv
    have hrec := ih (acc ++ [(q.1, (instantiate f q.2 st).1)]) (instantiate f q.2 st).2
      (fun p hp => hFG p (List.mem_cons_of_mem q hp)) H2
    rw [List.foldl_cons, List.map_cons]
    have hacc : acc ++ (q.1, instValue f q.2) :: rest.map (fun p => (p.1, instValue f p.2)) =
        (acc ++ [(q.1, instValue f q.2)]) ++ rest.map (fun p => (p.1, instValue f p.2)) := by
      simp
    rw [hacc, ← H1]
    exact hrec

theorem create_recipe_api_fst (D : String → List (String × String))
    (I : String → PatchedInfo) (tl : List (String × ModDef))
    (h : ∀ p ∈ tl, FollowsGraph D I p.2) :
    (create_recipe_api tl).1 =
      tl.map (fun p => (p.1, instValue recipe_instantiator p.2)) := by
  have hfold := create_fold_fst D I recipe_instantiator tl [] ⟨[], []⟩ h
    (MapInv.empty D I recipe_instantiator)
  rw [List.nil_append] at hfold
  exact hfold

theorem create_test_api_fst (D : String → List (String × String))
    (I : String → PatchedInfo) (tl : List (String × ModDef))
    (h : ∀ p ∈ tl, FollowsGraph D I p.2) :
    (create_test_api tl).1 =
      tl.map (fun p => (p.1, instValue test_instantiator p.2)) := by
  have hfold := create_fold_fst D I test_instantiator tl [] ⟨[], []⟩ h
    (MapInv.empty D I test_instantiator)
  rw [List.nil_append] at hfold
  exact hfold

theorem lookup_instValueList {α : Type} (f : ModDef → List (String × α) → α) :
    ∀ l : List (String × ModDef), (l.map Prod.fst).Nodup → ∀ p ∈ l,
    (instValueList f l).lookup p.1 = some (instValue f p.2) := by
  intro l
  induction l with
  | nil =>
    intro _ p hp
    cases hp
  | cons q rest ih =>
    intro hnd p hp
    match q with
    | (k, d) =>
      rw [instValueList_cons]
      simp only [List.map_cons, List.nodup_cons] at hnd
      rcases List.mem_cons.mp hp with h1 | h2
      · rw [h1]
        exact lookup_cons_self k _ _
      · have hk : p.1 ≠ k := by
          intro he
          exact hnd.1 (he ▸ List.mem_map_of_mem Prod.fst h2)
        rw [lookup_cons_ne k p.1 _ _ hk]
        exact ih hnd.2 p h2

theorem lookup_map_snd {α β : Type} (g : α → β) :
    ∀ (l : List (String × α)) (a : String),
    (l.map (fun p => (p.1, g p.2))).lookup a = (l.lookup a).map g := by
  intro l
  induction l with
  | nil => intro a; rfl
  | cons q rest ih =>
    intro a
    match q with
    | (k, v) =>
      simp only [List.map_cons]
      by_cases hk : a = k
      · rw [hk, lookup_cons_self, lookup_cons_self]
        rfl
      · rw [lookup_cons_ne k a _ _ hk, lookup_cons_ne k a _ _ hk]
        exact ih a

/-- C6.  Cross-wiring and isomorphism: the production graph and the
test graph built from the same top-level dependency set have identical
local-name topology at every depth; each instantiated module's
capability namespace carries exactly its dependencies' capability
instances under their local names, its companion test double (built
from the declared test-double class, or the empty default when none is
declared) carries the dependencies' test doubles under the same names;
and, with duplicate-free local names, looking up a dependency's local
name yields that dependency's instance and test double respectively. -/
theorem cross_wiring_and_isomorphism (D : String → List (String × String))
    (I : String → PatchedInfo) (toplevel : List (String × ModDef))
    (h : ∀ p ∈ toplevel, FollowsGraph D I p.2) :
    ((create_recipe_api toplevel).1.map (fun p => (p.1, apiTopology p.2)) =
      (create_test_api toplevel).1.map (fun p => (p.1, testTopology p.2))) ∧
    (∀ M : ModDef,
      (instValue recipe_instantiator M).m = instValueList recipe_instantiator M.deps ∧
      (instValue recipe_instantiator M).test.cls = M.info.testApi ∧
      (instValue recipe_instantiator M).test.m =
        (instValueList recipe_instantiator M.deps).map (fun p => (p.1, p.2.test)) ∧
      (instValue test_instantiator M).m = instValueList test_instantiator M.deps ∧
      (instValue test_instantiator M).cls = M.info.testApi) ∧
    (∀ M : ModDef, (M.deps.map Prod.fst).Nodup → ∀ p ∈ M.deps,
      (instValue recipe_instantiator M).m.lookup p.1 =
        some (instValue recipe_instantiator p.2) ∧
      (instValue recipe_instantiator M).test.m.lookup p.1 =
        some ((instValue recipe_instantiator p.2).test)) := by
  refine ⟨?_, ?_, ?_⟩
  · rw [create_recipe_api_fst D I toplevel h, create_test_api_fst D I toplevel h,
      List.map_map, List.map_map]
    refine List.map_congr_left ?_
    intro a _
    show (a.1, apiTopology (instValue recipe_instantiator a.2)) =
      (a.1, testTopology (instValue test_instantiator a.2))
    rw [topology_match a.2]
  · intro M
    cases M with
    | mk n deps info => exact ⟨rfl, rfl, rfl, rfl, rfl⟩
  · intro M hnd p hp
    cases M with
    | mk n deps info =>
      simp only [ModDef.deps] at hnd hp
      constructor
      · show (instValueList recipe_instantiator deps).lookup p.1 =
          some (instValue recipe_instantiator p.2)
        exact lookup_instValueList recipe_instantiator deps hnd p hp
      · show ((instValueList recipe_instantiator deps).map
            (fun q => (q.1, q.2.test))).lookup p.1 =
          some ((instValue recipe_instantiator p.2).test)
        rw [lookup_map_snd (fun i => i.test) (instValueList recipe_instantiator deps) p.1,
          lookup_instValueList recipe_instantiator deps hnd p hp]
        rfl

/-- Witness for `cross_wiring_and_isomorphism`: building the production
and test graphs over the diamond gives identical local-name topology. -/
theorem cross_wiring_and_isomorphism_witness :
    (create_recipe_api [("d", Md)]).1.map (fun p => (p.1, apiTopology p.2)) =
      (create_test_api [("d", Md)]).1.map (fun p => (p.1, testTopology p.2)) :=
  (cross_wiring_and_isomorphism Dd Id0 [("d", Md)] (fun p hp => by
    rcases List.mem_cons.mp hp with h1 | h2
    · rw [h1]
      exact followsGraphB_sound Dd Id0 Md (by decide)
    · cases h2)).1
